import Mathlib

/-!
# CBUSMCP_CAN: the frame ring buffer and the MCP2515 adapter

A shallow embedding of the classes `circular_buffer` and `CBUSMCP_CAN` and of the interrupt
handler `isr` (src/src/CBUSMCP_CAN.cpp, src/src/CBUSMCP_CAN.h), and theorems about them.

Conventions of the embedding:
* `byte` fields are naturals kept below 256 by an explicit `% 256` at every store,
  `unsigned int` counters are naturals kept below `2 ^ w` (`w` is the platform's width
  of `unsigned int`, 16 on AVR, 32 on ARM), C `int` expressions are computed in `Int`;
* an operation whose C++ behaviour is undefined (a slot access outside the allocated
  storage, `%` with a zero divisor, a read through a null pointer) returns `none`;
* the block returned by `malloc` has indeterminate contents: the constructor takes them
  as the parameter `mem`; the allocation itself is taken to succeed;
* `micros()` is the parameter `now` of `put`;
* a returned `CANFrame *` is modelled by the frame it points to at the time of the return,
  `none` being `nullptr`;
* the chip driver `MCP_CAN`, the SPI bus and the interrupt controller are external: what
  they answer is a parameter of the method that asks, and the calls made to them are
  logged, in order, in the ghost field `hw` of the adapter;
* the file-scope pointer `pp` is the index `pp` of a `Sketch`, the list of the adapter
  objects of the program: every constructor sets it, and `isr()` works on the adapter it
  points to.
-/

/-- Modelled from the spec: the `CANFrame` struct is declared in the CBUS base library
(`CBUS.h`), which is not part of the sources. A frame is an identifier, the extended and
remote-request flags, a length and the payload bytes. -/
structure CANFrame where
  id : Nat
  ext : Bool
  rtr : Bool
  len : Nat
  data : List Nat
deriving DecidableEq, Repr

/-- The `buffer_entry_t` struct: a frame and the time it was inserted. -/
structure buffer_entry_t where
  _item_insert_time : Nat
  _item : CANFrame
deriving DecidableEq, Repr

/-- The private fields of class `circular_buffer`. -/
structure circular_buffer where
  _full : Bool
  _head : Nat
  _tail : Nat
  _capacity : Nat
  _size : Nat
  _hwm : Nat
  _puts : Nat
  _gets : Nat
  _overflows : Nat
  _buffer : List buffer_entry_t
deriving DecidableEq, Repr

/-- Conversion of a C `int` value to `byte` (reduction modulo 256). -/
def toByte (i : Int) : Nat := (i % 256).toNat

/-- The C operator `a % c` on non-negative operands; undefined for a zero divisor. -/
def cmod (a c : Nat) : Option Nat := if c = 0 then none else some (a % c)

namespace circular_buffer

/-- The constructor `circular_buffer::circular_buffer(byte num_items)`; `mem` is the
indeterminate content of the `num_items` entries returned by `malloc`. -/
def new (num_items : Nat) (mem : Nat → buffer_entry_t) : circular_buffer :=
  { _head := 0
    _tail := 0
    _hwm := 0
    _capacity := num_items
    _size := 0
    _puts := 0
    _gets := 0
    _overflows := 0
    _full := false
    _buffer := (List.range num_items).map mem }

/-- The method `available`. -/
def available (b : circular_buffer) : Bool := decide (b._size > 0)

/-- The method `size`: recomputes the number of stored items, caches it in `_size`
and returns it. -/
def size (b : circular_buffer) : Nat × circular_buffer :=
  let size : Nat :=
    if !b._full then
      if b._head ≥ b._tail then toByte ((b._head : Int) - b._tail)
      else toByte ((b._capacity : Int) + b._head - b._tail)
    else b._capacity
  (size, { b with _size := size })

/-- The method `put`: stores the item and the current time at `_head`, drops the oldest
item when the buffer is full. -/
def put (w : Nat) (now : Nat) (item : CANFrame) (b : circular_buffer) :
    Option circular_buffer :=
  if b._head < b._buffer.length then do
    let b := { b with _buffer := b._buffer.set b._head ⟨now, item⟩ }
    let b ← if b._full then do
        let t ← cmod (b._tail + 1) b._capacity
        pure { b with _tail := t % 256, _overflows := (b._overflows + 1) % 2 ^ w }
      else pure b
    let h ← cmod (b._head + 1) b._capacity
    let b := { b with _head := h % 256 }
    let b := { b with _full := decide (b._head = b._tail) }
    let b := { (size b).2 with _size := (size b).1 }
    let b := { b with _hwm := if b._size > b._hwm then b._size else b._hwm }
    pure { b with _puts := (b._puts + 1) % 2 ^ w }
  else none

/-- The method `get`: the oldest item, removed from the buffer; `nullptr` when the
buffer holds nothing. -/
def get (w : Nat) (b : circular_buffer) : Option (Option CANFrame × circular_buffer) :=
  if b._size > 0 then do
    let e ← b._buffer[b._tail]?
    let b := { b with _full := false }
    let t ← cmod (b._tail + 1) b._capacity
    let b := { b with _tail := t % 256 }
    let b := { (size b).2 with _size := (size b).1 }
    pure (some e._item, { b with _gets := (b._gets + 1) % 2 ^ w })
  else pure (none, b)

/-- The method `insert_time`: the insert time of the entry at `_tail`. -/
def insert_time (b : circular_buffer) : Option Nat :=
  (b._buffer[b._tail]?).map (fun e => e._item_insert_time)

/-- The method `peek`: the oldest item, left in the buffer; `nullptr` when the buffer
holds nothing. -/
def peek (b : circular_buffer) : Option (Option CANFrame) :=
  if b._size = 0 then some none
  else (b._buffer[b._tail]?).map (fun e => some e._item)

/-- The method `clear`. -/
def clear (b : circular_buffer) : circular_buffer :=
  { b with _head := 0, _tail := 0, _full := false, _size := 0 }

/-- The method `hwm`. -/
def hwm (b : circular_buffer) : Nat := b._hwm

/-- The method `full`. -/
def full (b : circular_buffer) : Bool := b._full

/-- The method `empty`. -/
def empty (b : circular_buffer) : Bool := !b._full && decide (b._head = b._tail)

/-- The method `free_slots`. -/
def free_slots (b : circular_buffer) : Nat := toByte ((b._capacity : Int) - b._size)

/-- The method `puts`. -/
def puts (b : circular_buffer) : Nat := b._puts

/-- The method `gets`. -/
def gets (b : circular_buffer) : Nat := b._gets

/-- The method `overflows`. -/
def overflows (b : circular_buffer) : Nat := b._overflows

end circular_buffer

/-- The four mutating and reading queue operations of the class. -/
inductive BufOp where
  | put (now : Nat) (item : CANFrame)
  | get
  | peek
  | clear
deriving DecidableEq, Repr

/-- The accessor methods of the class. -/
inductive BufAccessor where
  | available
  | insert_time
  | hwm
  | full
  | size
  | empty
  | free_slots
  | puts
  | gets
  | overflows
deriving DecidableEq, Repr

/-- A call of a public method of `circular_buffer`. -/
inductive BufCall where
  | op (o : BufOp)
  | acc (a : BufAccessor)
deriving DecidableEq, Repr

/-- The value a method call returns. -/
inductive BufRet where
  | void
  | ptr (p : Option CANFrame)
  | bool (v : Bool)
  | num (n : Nat)
deriving DecidableEq, Repr

namespace circular_buffer

/-- One method call on a buffer: the returned value and the buffer afterwards. -/
def call (w : Nat) : BufCall → circular_buffer → Option (BufRet × circular_buffer)
  | .op (.put now item), b => (put w now item b).map (fun b1 => (.void, b1))
  | .op .get, b => (get w b).map (fun r => (.ptr r.1, r.2))
  | .op .peek, b => (peek b).map (fun p => (.ptr p, b))
  | .op .clear, b => some (.void, clear b)
  | .acc .available, b => some (.bool (available b), b)
  | .acc .insert_time, b => (insert_time b).map (fun t => (.num t, b))
  | .acc .hwm, b => some (.num (hwm b), b)
  | .acc .full, b => some (.bool (full b), b)
  | .acc .size, b => some (.num (size b).1, (size b).2)
  | .acc .empty, b => some (.bool (empty b), b)
  | .acc .free_slots, b => some (.num (free_slots b), b)
  | .acc .puts, b => some (.num (puts b), b)
  | .acc .gets, b => some (.num (gets b), b)
  | .acc .overflows, b => some (.num (overflows b), b)

/-- A sequence of method calls: the returned values and the final buffer. -/
def run (w : Nat) : List BufCall → circular_buffer → Option (List BufRet × circular_buffer)
  | [], b => some ([], b)
  | c :: cs, b =>
    match call w c b with
    | none => none
    | some (r, b1) =>
      match run w cs b1 with
      | none => none
      | some (rs, b2) => some (r :: rs, b2)

/-- A sequence of method calls: the buffer before the first call and after every call. -/
def trace (w : Nat) : List BufCall → circular_buffer → Option (List circular_buffer)
  | [], b => some [b]
  | c :: cs, b =>
    match call w c b with
    | none => none
    | some (_, b1) =>
      match trace w cs b1 with
      | none => none
      | some ss => some (b :: ss)

end circular_buffer

/-- Abstract model of a bounded overwrite-oldest queue of frames, following the
specification: `put` appends the frame, first dropping the head of the list when the
list already has `C` elements; `get` removes and returns the head (null on the empty
list); `peek` returns the head and keeps it; `clear` empties the list. -/
def absStep (C : Nat) : BufOp → List CANFrame → BufRet × List CANFrame
  | .put _ f, q => (.void, (if q.length = C then q.tail else q) ++ [f])
  | .get, q => (.ptr q.head?, q.tail)
  | .peek, q => (.ptr q.head?, q)
  | .clear, _ => (.void, [])

/-- The abstract queue model on a sequence of operations. -/
def absRun (C : Nat) : List BufOp → List CANFrame → List BufRet × List CANFrame
  | [], q => ([], q)
  | o :: os, q => (((absStep C o q).1 :: (absRun C os (absStep C o q).2).1),
                   (absRun C os (absStep C o q).2).2)

/-- The entries put and not yet removed or overwritten, oldest first, after one more
call: each frame paired with the time sampled by the `put` that deposited it. -/
def pendingStep (C : Nat) : BufCall → List buffer_entry_t → List buffer_entry_t
  | .op (.put now f), q => (if q.length = C then q.tail else q) ++ [⟨now, f⟩]
  | .op .get, q => q.tail
  | .op .peek, q => q
  | .op .clear, _ => []
  | .acc _, q => q

/-- The entries put and not yet removed or overwritten after a sequence of calls. -/
def pending (C : Nat) : List BufCall → List buffer_entry_t → List buffer_entry_t
  | [], q => q
  | c :: cs, q => pending C cs (pendingStep C c q)

/-- The value a queue operation returns when the stored entries are `q`. -/
def opRet : BufOp → List buffer_entry_t → BufRet
  | .put _ _, _ => .void
  | .get, q => .ptr (q.head?.map (fun e => e._item))
  | .peek, q => .ptr (q.head?.map (fun e => e._item))
  | .clear, _ => .void

/-- The values a sequence of queue operations returns, starting from the stored
entries `q`. -/
def opRets (C : Nat) : List BufOp → List buffer_entry_t → List BufRet
  | [], _ => []
  | o :: os, q => opRet o q :: opRets C os (pendingStep C (.op o) q)

/-- The largest value `size()` returns over a list of buffer states. -/
def maxSize (ss : List circular_buffer) : Nat :=
  (ss.map (fun s => (circular_buffer.size s).1)).foldr max 0

/-- The states reachable from a freshly constructed buffer of `C` items by method calls. -/
def Reachable (w C : Nat) (b : circular_buffer) : Prop :=
  ∃ mem calls rs, circular_buffer.run w calls (circular_buffer.new C mem) = some (rs, b)

/-- The structural invariant of a buffer of capacity `C`. -/
structure BufInv (C : Nat) (b : circular_buffer) : Prop where
  cap : b._capacity = C
  len : b._buffer.length = C
  head_lt : b._head < C
  tail_lt : b._tail < C
  size_le : b._size ≤ C
  full_iff : b._full = true ↔ b._size = C
  head_eq : b._head = (b._tail + b._size) % C
  hwm_le : b._hwm ≤ C
  size_le_hwm : b._size ≤ b._hwm

/-- The buffer `b` of capacity `C` stores exactly the entries `q`, oldest first, in the
slots `_tail`, `_tail + 1`, ... (modulo `C`). -/
structure BufSim (C : Nat) (b : circular_buffer) (q : List buffer_entry_t) : Prop where
  inv : BufInv C b
  length_eq : q.length = b._size
  slots : ∀ i, i < b._size → b._buffer[(b._tail + i) % C]? = q[i]?

/-- The calls `put(f_1), ..., put(f_n)`, each frame paired with the time `micros()`
returns inside its `put`. -/
def putCalls (fs : List (Nat × CANFrame)) : List BufCall :=
  fs.map (fun f => BufCall.op (BufOp.put f.1 f.2))

/-- The calls `get(), ..., get()`, `n` times. -/
def getCalls (n : Nat) : List BufCall := List.replicate n (BufCall.op BufOp.get)

/-- An indeterminate initial content of the storage, for the examples. -/
def mem0 : Nat → buffer_entry_t := fun _ => ⟨0, ⟨0, false, false, 0, []⟩⟩

/-- Example frames. -/
def frameA : CANFrame := ⟨0x123, false, false, 1, [65]⟩

/-- Example frame. -/
def frameB : CANFrame := ⟨0x124, false, false, 1, [66]⟩

/-- Example frame. -/
def frameC : CANFrame := ⟨0x125, true, false, 2, [67, 67]⟩

/-- Example frame. -/
def frameD : CANFrame := ⟨0x126, false, true, 0, []⟩

/-- Example frame. -/
def frameE : CANFrame := ⟨0x127, false, false, 8, [1, 2, 3, 4, 5, 6, 7, 8]⟩

/-- Whether a call is a `put`. -/
def BufCall.isPut : BufCall → Bool
  | .op (.put _ _) => true
  | _ => false

/-- Whether a call is a `get`. -/
def BufCall.isGet : BufCall → Bool
  | .op .get => true
  | _ => false

/-- Whether a queue operation is a `put` or a `get`. -/
def BufOp.isPutOrGet : BufOp → Bool
  | .put _ _ => true
  | .get => true
  | _ => false

/-- The frames a sequence of operations puts, in put order. -/
def putFrames : List BufOp → List CANFrame
  | [] => []
  | .put _ f :: os => f :: putFrames os
  | _ :: os => putFrames os

/-- The frames behind the non-null pointers among returned values, in order. -/
def gotFrames : List BufRet → List CANFrame
  | [] => []
  | .ptr (some f) :: rs => f :: gotFrames rs
  | _ :: rs => gotFrames rs

/-- Whether, running the calls from buffer `b`, no `put` is issued in a state in which
`size()` returns `C`. -/
def noPutWhenFull (w C : Nat) : List BufCall → circular_buffer → Bool
  | [], _ => true
  | c :: cs, b =>
    (!(c.isPut && decide ((circular_buffer.size b).1 = C))) &&
      (match circular_buffer.call w c b with
       | none => false
       | some (_, b1) => noPutWhenFull w C cs b1)

/-- The number of `put` calls in a sequence of calls. -/
def numPuts (calls : List BufCall) : Nat := (calls.filter BufCall.isPut).length

/-- The crystal settings of the chip driver that `begin` can select. -/
inductive McpClock where
  | MCP_8MHZ
  | MCP_16MHZ
  | MCP_20MHZ
deriving DecidableEq, Repr

/-- The chip driver object `MCP_CAN` behind `canp`, an external collaborator, reduced to
what this code observes of it: whether `begin(MCP_ANY, CAN_125KBPS, freq)` returns
`CAN_OK` and whether `setMode(MCP_NORMAL)` returns `MCP2515_OK`. -/
structure MCP_CAN where
  begin_ok : McpClock → Bool
  setMode_ok : Bool

/-- The calls made to the platform and to the chip driver, as they are logged in the
ghost field `hw` of the adapter. -/
inductive HwCall where
  | spi_begin
  | new_MCP_CAN (cs : Nat)
  | delete_MCP_CAN
  | canp_begin (freq : McpClock)
  | canp_setMode
  | pinMode (pin : Nat)
  | usingInterrupt (pin : Nat)
  | attachInterrupt (pin : Nat)
  | readMsgBuf
  | sendMsgBuf (id len : Nat) (data : List Nat)
deriving DecidableEq, Repr

/-- The members of class `CBUSMCP_CAN` (build without `ARDUINO_ARCH_RP2040`), with the
message counters it inherits from `CBUSbase`; the callback pointers `eventhandler`,
`eventhandlerex` and `framehandler` of the base class are left out. The ghost field `hw`
logs the calls made to the platform and the chip driver. -/
structure CBUSMCP_CAN where
  canp : Option MCP_CAN
  tx_buffer : Option circular_buffer
  rx_buffer : Option circular_buffer
  _osc_freq : Nat
  _csPin : Nat
  _intPin : Nat
  _num_rx_buffers : Nat
  _num_tx_buffers : Nat
  _poll : Bool
  _numMsgsSent : Nat
  _numMsgsRcvd : Nat
  hw : List HwCall

/-- What the environment answers during one call of `begin`: the result of
`new MCP_CAN` (`none` is `nullptr`) and the indeterminate contents of the storage of the
two new buffers. -/
structure BeginEnv where
  new_canp : Option MCP_CAN
  mem_rx : Nat → buffer_entry_t
  mem_tx : Nat → buffer_entry_t

/-- The constant `CSPIN`. -/
def CSPIN : Nat := 10

/-- The constant `INTPIN`. -/
def INTPIN : Nat := 2

/-- The constant `NUM_BUFFS`. -/
def NUM_BUFFS : Nat := 4

/-- The constant `OSCFREQ`. -/
def OSCFREQ : Nat := 16000000

namespace CBUSMCP_CAN

/-- The method `initMembers`, on the members of the adapter; its last statement,
`pp = this`, is in `Sketch.construct`. -/
def initMembers (a : CBUSMCP_CAN) : CBUSMCP_CAN :=
  { a with
    _num_rx_buffers := NUM_BUFFS
    _num_tx_buffers := 0
    _csPin := CSPIN
    _intPin := INTPIN
    _osc_freq := OSCFREQ
    _poll := false }

/-- The constructor `CBUSMCP_CAN::CBUSMCP_CAN()`, on the indeterminate object `raw`:
`canp` has the default member value 0, then `initMembers` runs. -/
def new (raw : CBUSMCP_CAN) : CBUSMCP_CAN :=
  initMembers { raw with canp := none, hw := [] }

/-- The crystal setting `begin` selects in its `switch (_osc_freq)`; `none` is the
`default` case. -/
def clockOf (osc_freq : Nat) : Option McpClock :=
  if osc_freq = 8000000 then some McpClock.MCP_8MHZ
  else if osc_freq = 16000000 then some McpClock.MCP_16MHZ
  else if osc_freq = 20000000 then some McpClock.MCP_20MHZ
  else none

/-- The method `begin(poll, spi)`: the returned value and the adapter afterwards. -/
def begin (poll : Bool) (env : BeginEnv) (a : CBUSMCP_CAN) : Bool × CBUSMCP_CAN :=
  let a := { a with _numMsgsSent := 0, _numMsgsRcvd := 0, _poll := poll }
  let a := { a with rx_buffer := some (circular_buffer.new a._num_rx_buffers env.mem_rx) }
  let a := { a with tx_buffer := some (circular_buffer.new a._num_tx_buffers env.mem_tx) }
  let a := { a with hw := a.hw ++ [HwCall.spi_begin] }
  let a := { a with canp := env.new_canp, hw := a.hw ++ [HwCall.new_MCP_CAN a._csPin] }
  match a.canp with
  | none => (false, a)
  | some chip =>
    match clockOf a._osc_freq with
    | none => (false, a)
    | some freq =>
      let a := { a with hw := a.hw ++ [HwCall.canp_begin freq] }
      if !chip.begin_ok freq then (false, a)
      else
        let a := { a with hw := a.hw ++ [HwCall.canp_setMode] }
        if !chip.setMode_ok then (false, a)
        else
          let a :=
            if !a._poll then
              { a with hw := a.hw ++
                  [HwCall.pinMode a._intPin, HwCall.usingInterrupt a._intPin,
                    HwCall.attachInterrupt a._intPin] }
            else a
          (true, a)

/-- The method `reset`: `delete canp; begin();`, the call of `begin` taking the default
arguments of its declaration, `poll = false` and `spi = SPI`. -/
def reset (env : BeginEnv) (a : CBUSMCP_CAN) : CBUSMCP_CAN :=
  (begin false env { a with hw := a.hw ++ [HwCall.delete_MCP_CAN] }).2

/-- The method `setPins` (build without `ARDUINO_ARCH_RP2040`). -/
def setPins (cs_pin int_pin : Nat) (a : CBUSMCP_CAN) : CBUSMCP_CAN :=
  { a with _csPin := cs_pin, _intPin := int_pin }

/-- The method `setNumBuffers(num_rx_buffers, _num_tx_buffers)`: its second parameter
has the name of the member, so `_num_tx_buffers = _num_tx_buffers` assigns the parameter
to itself and the member keeps its value. -/
def setNumBuffers (num_rx_buffers _num_tx_buffers : Nat) (a : CBUSMCP_CAN) : CBUSMCP_CAN :=
  let _num_tx_buffers := _num_tx_buffers
  { a with _num_rx_buffers := num_rx_buffers }

/-- The method `setOscFreq`. -/
def setOscFreq (freq : Nat) (a : CBUSMCP_CAN) : CBUSMCP_CAN :=
  { a with _osc_freq := freq }

end CBUSMCP_CAN

/-- The interrupt handler `isr`, on the adapter the global `pp` points to. `rd` is what
`readMsgBuf` answers: `none` when it does not return `CAN_OK`, else the identifier, length
and data bytes it left in the local frame `cf`; `now` is the time `put` samples. -/
def isr (w now : Nat) (rd : Option (Nat × Nat × List Nat)) (a : CBUSMCP_CAN) :
    Option CBUSMCP_CAN :=
  match a.canp with
  | none => none
  | some _ =>
    let a := { a with hw := a.hw ++ [HwCall.readMsgBuf] }
    match rd with
    | some (id, len, data) =>
      let cf : CANFrame :=
        { id := id, len := len, data := data,
          ext := decide (id &&& 0x80000000 = 0x80000000),
          rtr := decide (id &&& 0x40000000 = 0x40000000) }
      match a.rx_buffer with
      | none => none
      | some rx =>
        match circular_buffer.put w now cf rx with
        | none => none
        | some rx1 => some { a with rx_buffer := some rx1 }
    | none => some a

/-- The adapter objects of a sketch and the file-scope pointer `pp`, held as the index of
the adapter it points to. -/
structure Sketch where
  objs : List CBUSMCP_CAN
  pp : Nat

namespace Sketch

/-- A constructor call `CBUSMCP_CAN()`: the new adapter joins the sketch and `initMembers`
leaves `pp` pointing to it (`pp = this`). -/
def construct (raw : CBUSMCP_CAN) (s : Sketch) : Sketch :=
  { objs := s.objs ++ [CBUSMCP_CAN.new raw], pp := s.objs.length }

/-- The call `begin(poll, spi)` on the adapter with index `this`. -/
def begin (this : Nat) (poll : Bool) (env : BeginEnv) (s : Sketch) : Sketch :=
  match s.objs[this]? with
  | none => s
  | some a => { s with objs := s.objs.set this (CBUSMCP_CAN.begin poll env a).2 }

/-- The interrupt handler `isr()` as the sketch runs it: on the adapter `pp` points to. -/
def isr_pp (w now : Nat) (rd : Option (Nat × Nat × List Nat)) (s : Sketch) : Option Sketch :=
  match s.objs[s.pp]? with
  | none => none
  | some a =>
    match isr w now rd a with
    | none => none
    | some a1 => some { s with objs := s.objs.set s.pp a1 }

end Sketch

namespace CBUSMCP_CAN

/-- The method `available` called on the adapter with index `this`: in polling mode it
first runs `isr()`, which works on the adapter `pp` points to, then it consults its own
receive buffer. -/
def available (w now : Nat) (rd : Option (Nat × Nat × List Nat)) (this : Nat) (s : Sketch) :
    Option (Bool × Sketch) :=
  match s.objs[this]? with
  | none => none
  | some a =>
    match (if a._poll then Sketch.isr_pp w now rd s else some s) with
    | none => none
    | some s1 =>
      match s1.objs[this]? with
      | none => none
      | some a1 =>
        match a1.rx_buffer with
        | none => none
        | some rx => some (circular_buffer.available rx, s1)

/-- The method `getNextMessage`: undefined when `get` returns `nullptr`, which `memcpy`
then reads from. -/
def getNextMessage (w : Nat) (a : CBUSMCP_CAN) : Option (CANFrame × CBUSMCP_CAN) :=
  let a := { a with _numMsgsRcvd := (a._numMsgsRcvd + 1) % 2 ^ w }
  match a.rx_buffer with
  | none => none
  | some rx =>
    match circular_buffer.get w rx with
    | none => none
    | some (none, _) => none
    | some (some cf, rx1) => some (cf, { a with rx_buffer := some rx1 })

/-- The method `sendMessage(msg, rtr, ext, priority)`: the returned value, the frame
`*msg` as the call leaves it, and the adapter afterwards. `makeHeader` is the method of
the base class `CBUSbase`, not part of the sources, taken as a parameter; `send_ok` is
whether `sendMsgBuf` answers `CAN_OK`. -/
def sendMessage (w : Nat) (makeHeader : CANFrame → Nat → CANFrame) (send_ok : Bool)
    (msg : CANFrame) (rtr ext : Bool) (priority : Nat) (a : CBUSMCP_CAN) :
    Option (Bool × CANFrame × CBUSMCP_CAN) :=
  let msg := makeHeader msg priority
  let msg := if ext then { msg with id := (msg.id ||| 0x80000000) % 2 ^ 32 } else msg
  let msg := if rtr then { msg with id := (msg.id ||| 0x40000000) % 2 ^ 32 } else msg
  match a.canp with
  | none => none
  | some _ =>
    let a := { a with hw := a.hw ++ [HwCall.sendMsgBuf msg.id msg.len msg.data] }
    if send_ok then
      some (true, msg, { a with _numMsgsSent := (a._numMsgsSent + 1) % 2 ^ w })
    else some (false, msg, a)

end CBUSMCP_CAN

/-- A call of one of the configuration methods of the adapter. -/
inductive Setter where
  | setPins (cs_pin int_pin : Nat)
  | setNumBuffers (num_rx_buffers num_tx_buffers : Nat)
  | setOscFreq (freq : Nat)
deriving DecidableEq, Repr

/-- The adapter after a sequence of configuration calls. -/
def applySetters : List Setter → CBUSMCP_CAN → CBUSMCP_CAN
  | [], a => a
  | .setPins c i :: ss, a => applySetters ss (CBUSMCP_CAN.setPins c i a)
  | .setNumBuffers n m :: ss, a => applySetters ss (CBUSMCP_CAN.setNumBuffers n m a)
  | .setOscFreq f :: ss, a => applySetters ss (CBUSMCP_CAN.setOscFreq f a)

/-- An indeterminate adapter object, for the examples. -/
def raw0 : CBUSMCP_CAN :=
  { canp := none, tx_buffer := none, rx_buffer := none, _osc_freq := 0, _csPin := 0,
    _intPin := 0, _num_rx_buffers := 0, _num_tx_buffers := 0, _poll := false,
    _numMsgsSent := 0, _numMsgsRcvd := 0, hw := [] }

/-- A chip driver whose `begin` and `setMode` succeed, for the examples. -/
def chip0 : MCP_CAN := { begin_ok := fun _ => true, setMode_ok := true }

/-- An environment of `begin` in which every allocation succeeds, for the examples. -/
def env0 : BeginEnv := { new_canp := some chip0, mem_rx := mem0, mem_tx := mem0 }

/-- The buffer `circular_buffer(4)` after `put(frameA)` at time 7, for the examples. -/
def rxOne : circular_buffer :=
  { _full := false, _head := 1, _tail := 0, _capacity := 4, _size := 1, _hwm := 1,
    _puts := 1, _gets := 0, _overflows := 0,
    _buffer := [⟨7, frameA⟩, mem0 1, mem0 2, mem0 3] }

/-- The buffer `circular_buffer(2)` after three puts, full and with one overflow, for the
examples. -/
def rxFull : circular_buffer :=
  { _full := true, _head := 1, _tail := 1, _capacity := 2, _size := 2, _hwm := 2,
    _puts := 3, _gets := 0, _overflows := 1,
    _buffer := [⟨3, frameC⟩, ⟨2, frameB⟩] }

/-- The buffer `circular_buffer(4)` after four puts, two gets and one more put, with
`_head` wrapped around below `_tail`, for the examples. -/
def rxWrap : circular_buffer :=
  { _full := false, _head := 1, _tail := 2, _capacity := 4, _size := 3, _hwm := 4,
    _puts := 5, _gets := 2, _overflows := 0,
    _buffer := [⟨5, frameE⟩, ⟨2, frameB⟩, ⟨3, frameC⟩, ⟨4, frameD⟩] }

/-- The calls that lead from `circular_buffer(2)` to `rxFull`. -/
def callsFull : List BufCall :=
  [.op (.put 1 frameA), .op (.put 2 frameB), .op (.put 3 frameC)]

/-- The calls that lead from `circular_buffer(4)` to `rxWrap`. -/
def callsWrap : List BufCall :=
  [.op (.put 1 frameA), .op (.put 2 frameB), .op (.put 3 frameC), .op (.put 4 frameD),
    .op .get, .op .get, .op (.put 5 frameE)]

/-- A sketch with two adapters: the first one begun in polling mode, the second one,
constructed last, begun in interrupt-driven mode. -/
def sketch2 : Sketch :=
  Sketch.begin 1 false env0 (Sketch.begin 0 true env0
    (Sketch.construct raw0 (Sketch.construct raw0 ⟨[], 0⟩)))

/-- A sketch with two adapters, both begun in polling mode. -/
def sketch3 : Sketch :=
  Sketch.begin 1 true env0 (Sketch.begin 0 true env0
    (Sketch.construct raw0 (Sketch.construct raw0 ⟨[], 0⟩)))

theorem mod_two_range (a C : Nat) (h : a < 2 * C) :
    (a < C ∧ a % C = a) ∨ (C ≤ a ∧ a % C = a - C) := by
  by_cases h1 : a < C
  · exact Or.inl ⟨h1, Nat.mod_eq_of_lt h1⟩
  · right
    refine ⟨by omega, ?_⟩
    rw [Nat.mod_eq_sub_mod (by omega)]
    exact Nat.mod_eq_of_lt (by omega)

theorem toByte_sub (x y : Nat) (h1 : y ≤ x) (h2 : x < 256 + y) :
    toByte ((x : Int) - y) = x - y := by
  unfold toByte; omega

theorem toByte_add_sub (c x y : Nat) (h1 : y ≤ c + x) (h2 : c + x < 256 + y) :
    toByte ((c : Int) + x - y) = c + x - y := by
  unfold toByte; omega

/-- The occupancy that `size` recomputes for a buffer that is not full, when `h` is `s`
slots after `t` on the ring. -/
theorem ring_occupancy (c h t s : Nat) (hc : c ≤ 255) (ht : t < c) (hs : s < c)
    (hh : h = (t + s) % c) :
    (if h ≥ t then toByte ((h : Int) - t) else toByte ((c : Int) + h - t)) = s := by
  rcases mod_two_range (t + s) c (by omega) with ⟨h1, h2⟩ | ⟨h1, h2⟩
  · rw [h2] at hh
    rw [if_pos (by omega), toByte_sub h t (by omega) (by omega)]
    omega
  · rw [h2] at hh
    rw [if_neg (by omega), toByte_add_sub c h t (by omega) (by omega)]
    omega

theorem ring_index_ne (c t i j : Nat) (hi : i < c) (hj : j < c) (hij : i ≠ j) :
    (t + i) % c ≠ (t + j) % c := by
  intro h
  have h1 : i % c = j % c := Nat.ModEq.add_left_cancel' t h
  rw [Nat.mod_eq_of_lt hi, Nat.mod_eq_of_lt hj] at h1
  exact hij h1

theorem ring_index_succ (c t i : Nat) : ((t + 1) % c + i) % c = (t + (i + 1)) % c := by
  rw [Nat.mod_add_mod]
  congr 1
  omega

theorem ring_index_wrap (c t : Nat) (ht : t < c) : (t + c) % c = t := by
  rw [Nat.add_mod_right, Nat.mod_eq_of_lt ht]

theorem succ_mod_mod (a c : Nat) : (a % c + 1) % c = (a + 1) % c := Nat.mod_add_mod a c 1

namespace circular_buffer

theorem size_of_inv {C : Nat} {b : circular_buffer} (hI : BufInv C b) (hC : C ≤ 255) :
    size b = (b._size, b) := by
  obtain ⟨cap, len, hlt, tlt, sle, fiff, heq, hw, shw⟩ := hI
  rcases b with ⟨f, h, t, c, s, m, p, g, o, buf⟩
  simp only at cap len hlt tlt sle fiff heq hw shw
  subst cap
  unfold size
  cases f
  · have hne : s < c := by
      have : s ≠ c := fun h => by simp [h] at fiff
      omega
    simp only [Bool.not_false, if_true, ring_occupancy c h t s hC tlt hne heq]
  · have : s = c := fiff.1 rfl
    simp [this]

theorem put_fields {C : Nat} {b : circular_buffer} (hI : BufInv C b)
    (h0 : 0 < C) (hC : C ≤ 255) (w now : Nat) (item : CANFrame) :
    ∃ b', put w now item b = some b' ∧
      b'._capacity = C ∧ b'._buffer = b._buffer.set b._head ⟨now, item⟩ ∧
      b'._head = (b._head + 1) % C ∧
      b'._tail = (if b._full then (b._tail + 1) % C else b._tail) ∧
      b'._size = (if b._full then C else b._size + 1) ∧
      (b'._full = true ↔ b'._size = C) ∧
      b'._hwm = (if b'._size > b._hwm then b'._size else b._hwm) ∧
      b'._puts = (b._puts + 1) % 2 ^ w ∧ b'._gets = b._gets ∧
      b'._overflows = (if b._full then (b._overflows + 1) % 2 ^ w else b._overflows) := by
  obtain ⟨cap, len, hlt, tlt, sle, fiff, heq, hw, shw⟩ := hI
  rcases b with ⟨f, h, t, c, s, m, p, g, o, buf⟩
  simp only at cap len hlt tlt sle fiff heq hw shw
  subst cap
  have hh1 : (h + 1) % c = (t + (s + 1)) % c := by
    rw [heq, succ_mod_mod, Nat.add_assoc]
  obtain ⟨h', hh'⟩ : ∃ h', (h + 1) % c = h' := ⟨_, rfl⟩
  obtain ⟨t', ht'⟩ : ∃ t', (t + 1) % c = t' := ⟨_, rfl⟩
  have hh'lt : h' < c := by rw [← hh']; exact Nat.mod_lt _ h0
  have ht'lt : t' < c := by rw [← ht']; exact Nat.mod_lt _ h0
  have hh256 : h' % 256 = h' := by omega
  have ht256 : t' % 256 = t' := by omega
  rw [hh'] at hh1
  cases f
  · have hne : s ≠ c := fun h => by simp [h] at fiff
    simp only [put, len, hlt, cmod, size, Nat.pos_iff_ne_zero.1 h0, hh', hh256, if_true,
      if_false, Option.pure_def, Option.bind_eq_bind, Option.some_bind, Bool.false_eq_true,
      Option.some.injEq, exists_eq_left', true_and, Bool.not_eq_true', decide_eq_false_iff_not,
      decide_eq_true_eq, and_true]
    by_cases hsc : s + 1 = c
    · have e : h' = t := by
        rw [hh1, Nat.add_comm t, hsc]
        simp [Nat.mod_eq_of_lt tlt]
      simp only [e, not_true_eq_false, if_false, hsc, and_self]
    · have e : ¬h' = t := by
        rcases mod_two_range (t + (s + 1)) c (by omega) with ⟨h1, h2⟩ | ⟨h1, h2⟩ <;> omega
      simp only [e, not_false_eq_true, if_true,
        ring_occupancy c h' t (s + 1) hC tlt (by omega) hh1, false_iff, true_and]
      exact hsc
  · have hs : s = c := fiff.1 rfl
    subst hs
    have e : h' = t' := by
      rw [← hh', ← ht', heq]
      simp
    simp only [put, len, hlt, cmod, size, Nat.pos_iff_ne_zero.1 h0, hh', hh256, ht', ht256, if_true,
      if_false, Option.pure_def, Option.bind_eq_bind, Option.some_bind, Bool.false_eq_true,
      Option.some.injEq, exists_eq_left', true_and, Bool.not_eq_true', decide_eq_false_iff_not,
      decide_eq_true_eq, and_true, e, not_true_eq_false, and_self]

theorem get_fields {C : Nat} {b : circular_buffer} (hI : BufInv C b)
    (h0 : 0 < C) (hC : C ≤ 255) (hs : 0 < b._size) (w : Nat) :
    ∃ e b', b._buffer[b._tail]? = some e ∧ get w b = some (some e._item, b') ∧
      b'._capacity = C ∧ b'._buffer = b._buffer ∧ b'._head = b._head ∧
      b'._tail = (b._tail + 1) % C ∧ b'._size = b._size - 1 ∧ b'._full = false ∧
      b'._hwm = b._hwm ∧ b'._puts = b._puts ∧ b'._gets = (b._gets + 1) % 2 ^ w ∧
      b'._overflows = b._overflows := by
  obtain ⟨cap, len, hlt, tlt, sle, fiff, heq, hw, shw⟩ := hI
  rcases b with ⟨f, h, t, c, s, m, p, g, o, buf⟩
  simp only at cap len hlt tlt sle fiff heq hw shw hs
  subst cap
  have hh1 : h = ((t + 1) % c + (s - 1)) % c := by
    rw [heq, Nat.mod_add_mod]
    congr 1; omega
  obtain ⟨t', ht'⟩ : ∃ t', (t + 1) % c = t' := ⟨_, rfl⟩
  have ht'lt : t' < c := by rw [← ht']; exact Nat.mod_lt _ h0
  have ht256 : t' % 256 = t' := by omega
  have hlt' : t < buf.length := by omega
  rw [ht'] at hh1
  refine ⟨buf[t], ?_⟩
  simp only [get, hs, cmod, size, Nat.pos_iff_ne_zero.1 h0, ht', ht256, if_true,
    if_false, Option.pure_def, Option.bind_eq_bind, Option.some_bind, Bool.false_eq_true,
    Option.some.injEq, exists_eq_left', true_and, Bool.not_eq_true', decide_eq_false_iff_not,
    decide_eq_true_eq, List.getElem?_eq_getElem hlt', gt_iff_lt, Prod.mk.injEq, exists_eq_left',
    Bool.not_false, and_true, ring_occupancy c h t' (s - 1) hC ht'lt (by omega) hh1]

theorem put_sim {C : Nat} {b : circular_buffer} {q : List buffer_entry_t} (hS : BufSim C b q)
    (h0 : 0 < C) (hC : C ≤ 255) (w now : Nat) (item : CANFrame) :
    ∃ b', put w now item b = some b' ∧ BufSim C b' (pendingStep C (.op (.put now item)) q) ∧
      b'._hwm = (if b'._size > b._hwm then b'._size else b._hwm) ∧
      b'._puts = (b._puts + 1) % 2 ^ w ∧ b'._gets = b._gets ∧
      b'._overflows = (if b._full then (b._overflows + 1) % 2 ^ w else b._overflows) := by
  obtain ⟨hI, hlen, hsl⟩ := hS
  obtain ⟨b', hput, hcap, hbuf, hhead, htail, hsize, hfull, hhwm, hputs, hgets, hov⟩ :=
    put_fields hI h0 hC w now item
  refine ⟨b', hput, ?_, hhwm, hputs, hgets, hov⟩
  obtain ⟨cap, len, hlt, tlt, sle, fiff, heq, hw, shw⟩ := hI
  clear hput hputs hgets hov
  have hhl : b'._head < C := by rw [hhead]; exact Nat.mod_lt _ h0
  have hlen' : b'._buffer.length = C := by simp [hbuf, len]
  cases hf : b._full
  · -- the buffer was not full: the entry is appended
    have hne : b._size ≠ C := fun h => by simp [fiff.2 h] at hf
    simp only [hf, Bool.false_eq_true, if_false] at htail hsize
    have hq : pendingStep C (.op (.put now item)) q = q ++ [⟨now, item⟩] := by
      simp [pendingStep, hlen, hne]
    rw [hq]
    refine ⟨⟨hcap, hlen', hhl, by omega, by omega, hfull, ?_, ?_, ?_⟩, ?_, ?_⟩
    · rw [hhead, htail, hsize, heq, succ_mod_mod, Nat.add_assoc]
    · rw [hhwm]; split_ifs <;> omega
    · rw [hhwm]; split_ifs <;> omega
    · simp [hlen, hsize]
    · intro i hi
      rw [htail, hbuf]
      rw [hsize] at hi
      by_cases his : i < b._size
      · have hidx : b._head ≠ (b._tail + i) % C := by
          rw [heq]
          exact ring_index_ne C b._tail b._size i (by omega) (by omega) (by omega)
        rw [List.getElem?_set_ne hidx, List.getElem?_append_left (by omega)]
        exact hsl i his
      · have hi' : i = b._size := by omega
        subst hi'
        rw [← heq, List.getElem?_set_self (by omega), ← hlen, List.getElem?_concat_length]
  · -- the buffer was full: the oldest entry is dropped
    have hs : b._size = C := fiff.1 hf
    have hht : b._head = b._tail := by rw [heq, hs, ring_index_wrap C _ tlt]
    simp only [hf, if_true] at htail hsize
    have hq : pendingStep C (.op (.put now item)) q = q.tail ++ [⟨now, item⟩] := by
      simp [pendingStep, hlen, hs]
    rw [hq]
    have htl : b'._tail < C := by rw [htail]; exact Nat.mod_lt _ h0
    refine ⟨⟨hcap, hlen', hhl, htl, by omega, hfull, ?_, ?_, ?_⟩, ?_, ?_⟩
    · rw [hhead, htail, hsize, hht, Nat.add_mod_right, Nat.mod_mod]
    · rw [hhwm]; split_ifs <;> omega
    · rw [hhwm]; split_ifs <;> omega
    · simp [hlen, hsize, hs]; omega
    · intro i hi
      rw [htail, hbuf, ring_index_succ]
      rw [hsize] at hi
      by_cases his : i + 1 < C
      · have hidx : b._head ≠ (b._tail + (i + 1)) % C := by
          have := ring_index_ne C b._tail 0 (i + 1) h0 his (by omega)
          rw [Nat.add_zero, Nat.mod_eq_of_lt tlt] at this
          rw [hht]; exact this
        rw [List.getElem?_set_ne hidx,
          List.getElem?_append_left (by simp [hlen, hs]; omega), List.getElem?_tail]
        exact hsl (i + 1) (by omega)
      · have hidx : (b._tail + (i + 1)) % C = b._head := by
          have : i + 1 = C := by omega
          rw [this, ring_index_wrap C _ tlt, hht]
        have hi' : i = q.tail.length := by simp [hlen, hs]; omega
        rw [hidx, List.getElem?_set_self (by omega)]
        rw [hi', List.getElem?_concat_length]

theorem get_sim {C : Nat} {b : circular_buffer} {q : List buffer_entry_t} (hS : BufSim C b q)
    (h0 : 0 < C) (hC : C ≤ 255) (hs : 0 < b._size) (w : Nat) :
    ∃ e b', q.head? = some e ∧ get w b = some (some e._item, b') ∧ BufSim C b' q.tail ∧
      insert_time b = some e._item_insert_time ∧ peek b = some (some e._item) ∧
      b'._hwm = b._hwm ∧ b'._puts = b._puts ∧ b'._gets = (b._gets + 1) % 2 ^ w ∧
      b'._overflows = b._overflows := by
  obtain ⟨hI, hlen, hsl⟩ := hS
  obtain ⟨e, b', he, hget, hcap, hbuf, hhead, htail, hsize, hfull, hhwm, hputs, hgets, hov⟩ :=
    get_fields hI h0 hC hs w
  obtain ⟨cap, len, hlt, tlt, sle, fiff, heq, hw, shw⟩ := hI
  have h00 := hsl 0 hs
  rw [Nat.add_zero, Nat.mod_eq_of_lt tlt, he] at h00
  have htl : b'._tail < C := by rw [htail]; exact Nat.mod_lt _ h0
  refine ⟨e, b', ?_, hget, ⟨⟨hcap, by rw [hbuf, len], by omega, htl, by omega, ?_, ?_, by omega,
    by omega⟩, ?_, ?_⟩, ?_, ?_, hhwm, hputs, hgets, hov⟩
  · rw [List.head?_eq_getElem?, ← h00]
  · simp [hfull]; omega
  · rw [hhead, htail, hsize, ring_index_succ, heq]
    congr 2; omega
  · simp [hlen, hsize]
  · intro i hi
    rw [htail, hbuf, List.getElem?_tail, ring_index_succ]
    exact hsl (i + 1) (by omega)
  · simp [insert_time, he]
  · have : b._size ≠ 0 := by omega
    simp [peek, he, this]

theorem new_sim (C : Nat) (mem : Nat → buffer_entry_t) (h0 : 0 < C) :
    BufSim C (new C mem) [] := by
  refine ⟨⟨rfl, by simp [new], h0, h0, Nat.zero_le _, by simp [new]; omega, ?_, Nat.zero_le _,
    Nat.le_refl _⟩, rfl, ?_⟩
  · simp [new]
  · intro i hi
    exact absurd hi (Nat.not_lt_zero _)

theorem clear_sim {C : Nat} {b : circular_buffer} {q : List buffer_entry_t} (hS : BufSim C b q)
    (h0 : 0 < C) : BufSim C (clear b) [] := by
  obtain ⟨⟨cap, len, hlt, tlt, sle, fiff, heq, hw, shw⟩, hlen, hsl⟩ := hS
  refine ⟨⟨cap, len, h0, h0, Nat.zero_le _, by simp [clear]; omega, ?_, hw, Nat.zero_le _⟩,
    rfl, ?_⟩
  · simp [clear]
  · intro i hi
    exact absurd hi (Nat.not_lt_zero _)

theorem peek_empty {b : circular_buffer} (hs : b._size = 0) : peek b = some none := by
  simp [peek, hs]

theorem call_sim {C : Nat} {b : circular_buffer} {q : List buffer_entry_t} (hS : BufSim C b q)
    (h0 : 0 < C) (hC : C ≤ 255) (w : Nat) (c : BufCall) :
    ∃ r b', call w c b = some (r, b') ∧ BufSim C b' (pendingStep C c q) ∧
      b'._hwm = max b._hwm b'._size ∧ (∀ o, c = .op o → r = opRet o q) := by
  have hI := hS.inv
  have hq0 : b._size = 0 → q = [] := fun h => List.length_eq_zero.1 (by rw [hS.length_eq, h])
  rcases c with (_ | _ | _ | _) | a
  · -- put
    rename_i now item
    obtain ⟨b', hput, hS', hhwm, -⟩ := put_sim hS h0 hC w now item
    refine ⟨.void, b', by simp [call, hput], hS', ?_, ?_⟩
    · rw [hhwm]; have := hI.size_le_hwm; split_ifs <;> omega
    · intro o ho; cases ho; rfl
  · -- get
    by_cases hs : 0 < b._size
    · obtain ⟨e, b', hhead, hget, hS', -, -, hhwm, -⟩ := get_sim hS h0 hC hs w
      refine ⟨.ptr (some e._item), b', by simp [call, hget], hS', ?_, ?_⟩
      · have h1 := hS'.inv.size_le_hwm; omega
      · intro o ho; cases ho; simp [opRet, hhead]
    · have hs0 : b._size = 0 := by omega
      have hq := hq0 hs0
      subst hq
      refine ⟨.ptr none, b, by simp [call, get, hs0], hS, ?_, ?_⟩
      · have := hI.size_le_hwm; omega
      · intro o ho; cases ho; simp [opRet]
  · -- peek
    have hmono : b._hwm = max b._hwm b._size := by have := hI.size_le_hwm; omega
    by_cases hs : 0 < b._size
    · obtain ⟨e, b', hhead, -, -, -, hpeek, -⟩ := get_sim hS h0 hC hs w
      refine ⟨.ptr (some e._item), b, by simp [call, hpeek], hS, hmono, ?_⟩
      intro o ho; cases ho; simp [opRet, hhead]
    · have hs0 : b._size = 0 := by omega
      have hq := hq0 hs0
      subst hq
      refine ⟨.ptr none, b, by simp [call, peek, hs0], hS, hmono, ?_⟩
      intro o ho; cases ho; simp [opRet]
  · -- clear
    refine ⟨.void, clear b, rfl, clear_sim hS h0, ?_, ?_⟩
    · simp [clear]
    · intro o ho; cases ho; rfl
  · -- accessors
    have hmono : b._hwm = max b._hwm b._size := by have := hI.size_le_hwm; omega
    have hsz := size_of_inv hI hC
    have hlt : b._tail < b._buffer.length := by rw [hI.len]; exact hI.tail_lt
    cases a
    case size =>
      exact ⟨.num b._size, b, by simp [call, hsz], hS, hmono, fun o ho => by cases ho⟩
    case insert_time =>
      exact ⟨.num (b._buffer[b._tail])._item_insert_time, b,
        by simp [call, insert_time, List.getElem?_eq_getElem hlt], hS, hmono,
        fun o ho => by cases ho⟩
    all_goals exact ⟨_, b, rfl, hS, hmono, fun o ho => by cases ho⟩

theorem run_sim {C : Nat} (h0 : 0 < C) (hC : C ≤ 255) (w : Nat) :
    ∀ (calls : List BufCall) (b : circular_buffer) (q : List buffer_entry_t), BufSim C b q →
      ∃ rs b', run w calls b = some (rs, b') ∧ BufSim C b' (pending C calls q) := by
  intro calls
  induction calls with
  | nil => intro b q hS; exact ⟨[], b, rfl, hS⟩
  | cons c cs ih =>
    intro b q hS
    obtain ⟨r, b1, hcall, hS1, -, -⟩ := call_sim hS h0 hC w c
    obtain ⟨rs, b2, hrun, hS2⟩ := ih b1 _ hS1
    exact ⟨r :: rs, b2, by simp [run, hcall, hrun], hS2⟩

theorem run_ops_sim {C : Nat} (h0 : 0 < C) (hC : C ≤ 255) (w : Nat) :
    ∀ (ops : List BufOp) (b : circular_buffer) (q : List buffer_entry_t), BufSim C b q →
      ∃ b', run w (ops.map BufCall.op) b = some (opRets C ops q, b') ∧
        BufSim C b' (pending C (ops.map BufCall.op) q) := by
  intro ops
  induction ops with
  | nil => intro b q hS; exact ⟨b, rfl, hS⟩
  | cons o os ih =>
    intro b q hS
    obtain ⟨r, b1, hcall, hS1, -, hr⟩ := call_sim hS h0 hC w (.op o)
    obtain ⟨b2, hrun, hS2⟩ := ih b1 _ hS1
    have hr' := hr o rfl
    subst hr'
    exact ⟨b2, by simp [run, hcall, hrun, opRets], hS2⟩

theorem reachable_sim {w C : Nat} {b : circular_buffer} (h0 : 0 < C) (hC : C ≤ 255)
    (hR : Reachable w C b) : ∃ q, BufSim C b q := by
  obtain ⟨mem, calls, rs, hrun⟩ := hR
  obtain ⟨rs', b', hrun', hS⟩ := run_sim h0 hC w calls _ _ (new_sim C mem h0)
  rw [hrun] at hrun'
  cases hrun'
  exact ⟨_, hS⟩

end circular_buffer

/-- C1: for every capacity `1 ≤ C ≤ 255` every sequence of method calls on a fresh buffer
is defined, and in the state it reaches `_head < C`, `_tail < C`, the occupancy is at most
`C`, the cached `_size` is the value `size()` returns, and `full()` holds exactly when
the occupancy is `C`. -/
theorem C1_invariant (w C : Nat) (mem : Nat → buffer_entry_t) (calls : List BufCall)
    (h1 : 1 ≤ C) (hC : C ≤ 255) :
    ∃ rs b, circular_buffer.run w calls (circular_buffer.new C mem) = some (rs, b) ∧
      b._head < C ∧ b._tail < C ∧
      (circular_buffer.size b).1 = b._size ∧ 0 ≤ b._size ∧ b._size ≤ C ∧
      (circular_buffer.full b = true ↔ (circular_buffer.size b).1 = C) := by
  obtain ⟨rs, b, hrun, hS⟩ :=
    circular_buffer.run_sim h1 hC w calls _ _ (circular_buffer.new_sim C mem h1)
  have hI := hS.inv
  have hsz := circular_buffer.size_of_inv hI hC
  refine ⟨rs, b, hrun, hI.head_lt, hI.tail_lt, by rw [hsz], Nat.zero_le _, hI.size_le, ?_⟩
  rw [hsz]
  exact hI.full_iff

theorem C1_invariant_witness :
    1 ≤ 4 ∧ 4 ≤ 255 ∧ ∃ rs b, circular_buffer.run 16 [.op (.put 7 frameA), .acc .size, .op .get]
        (circular_buffer.new 4 mem0) = some (rs, b) ∧
      b._head < 4 ∧ b._tail < 4 ∧
      (circular_buffer.size b).1 = b._size ∧ 0 ≤ b._size ∧ b._size ≤ 4 ∧
      (circular_buffer.full b = true ↔ (circular_buffer.size b).1 = 4) :=
  ⟨by decide, by decide, C1_invariant 16 4 mem0 _ (by decide) (by decide)⟩

namespace circular_buffer

theorem puts_run {C : Nat} (h0 : 0 < C) (hC : C ≤ 255) (w : Nat) :
    ∀ (fs : List (Nat × CANFrame)) (b : circular_buffer) (q : List buffer_entry_t),
      BufSim C b q → b._puts < 2 ^ w → b._overflows < 2 ^ w →
      ∃ b', run w (putCalls fs) b = some (List.replicate fs.length BufRet.void, b') ∧
        BufSim C b'
          ((q ++ fs.map (fun f => buffer_entry_t.mk f.1 f.2)).drop
            (q.length + fs.length - C)) ∧
        b'._puts = (b._puts + fs.length) % 2 ^ w ∧ b'._gets = b._gets ∧
        b'._overflows = (b._overflows + (q.length + fs.length - C)) % 2 ^ w := by
  intro fs
  induction fs with
  | nil =>
    intro b q hS hp ho
    have hle : q.length ≤ C := by rw [hS.length_eq]; exact hS.inv.size_le
    refine ⟨b, rfl, ?_, ?_, rfl, ?_⟩
    · have : q.length - C = 0 := by omega
      simpa [this] using hS
    · simp [Nat.mod_eq_of_lt hp]
    · have : q.length - C = 0 := by omega
      simp [this, Nat.mod_eq_of_lt ho]
  | cons f fs ih =>
    intro b q hS hp ho
    have hle : q.length ≤ C := by rw [hS.length_eq]; exact hS.inv.size_le
    have hM : 0 < 2 ^ w := Nat.pow_pos (by decide)
    obtain ⟨b1, hput, hS1, -, hputs, hgets, hov⟩ := put_sim hS h0 hC w f.1 f.2
    have hp1 : b1._puts < 2 ^ w := by rw [hputs]; exact Nat.mod_lt _ hM
    have ho1 : b1._overflows < 2 ^ w := by
      rw [hov]; split
      · exact Nat.mod_lt _ hM
      · exact ho
    obtain ⟨b2, hrun, hS2, hputs2, hgets2, hov2⟩ := ih b1 _ hS1 hp1 ho1
    have hfull : b._full = true ↔ q.length = C := by rw [hS.length_eq]; exact hS.inv.full_iff
    refine ⟨b2, ?_, ?_, ?_, by rw [hgets2, hgets], ?_⟩
    · simp [putCalls, run, call, hput] at hrun ⊢
      simp [putCalls, hrun, List.replicate_succ]
    · by_cases hq : q.length = C
      · obtain ⟨x, q', rfl⟩ : ∃ x q', q = x :: q' := by
          cases q with
          | nil => simp at hq; omega
          | cons x q' => exact ⟨x, q', rfl⟩
        simp only [pendingStep, hq, if_true, List.tail_cons, List.length_append,
          List.length_cons, List.length_nil] at hS2
        simp only [List.length_cons] at hq
        have e1 : q'.length + (0 + 1) + fs.length - C = fs.length := by omega
        have e2 : (x :: q').length + (f :: fs).length - C = fs.length + 1 := by
          simp only [List.length_cons]; omega
        rw [e1] at hS2
        rw [e2]
        simpa using hS2
      · simp only [pendingStep, hq, if_false, List.length_append,
          List.length_cons, List.length_nil] at hS2
        have e1 : q.length + (0 + 1) + fs.length - C = q.length + (f :: fs).length - C := by
          simp only [List.length_cons]; omega
        rw [e1] at hS2
        simpa using hS2
    · rw [hputs2, hputs, Nat.mod_add_mod, List.length_cons]
      congr 1; omega
    · rw [hov2, hov]
      by_cases hq : q.length = C
      · have hf : b._full = true := hfull.2 hq
        simp only [hf, if_true, pendingStep, hq, List.length_append, List.length_tail,
          List.length_cons, List.length_nil, Nat.mod_add_mod]
        congr 1; omega
      · have hf : b._full = false := by
          cases h : b._full
          · rfl
          · exact absurd (hfull.1 h) hq
        simp only [hf, Bool.false_eq_true, if_false, pendingStep, hq, List.length_append,
          List.length_cons, List.length_nil]
        congr 1; omega

theorem gets_run {C : Nat} (h0 : 0 < C) (hC : C ≤ 255) (w : Nat) :
    ∀ (q : List buffer_entry_t) (b : circular_buffer), BufSim C b q →
      ∃ b', run w (getCalls q.length) b =
          some (q.map (fun e => BufRet.ptr (some e._item)), b') ∧ BufSim C b' [] := by
  intro q
  induction q with
  | nil => intro b hS; exact ⟨b, rfl, hS⟩
  | cons x q ih =>
    intro b hS
    have hs : 0 < b._size := by rw [← hS.length_eq]; simp
    obtain ⟨e, b1, hhead, hget, hS1, -⟩ := get_sim hS h0 hC hs w
    simp only [List.head?_cons, Option.some.injEq] at hhead
    subst hhead
    obtain ⟨b2, hrun, hS2⟩ := ih b1 hS1
    refine ⟨b2, ?_, hS2⟩
    simp only [getCalls] at hrun
    simp [getCalls, List.replicate_succ, run, call, hget, hrun]

theorem empty_of_sim_nil {C : Nat} {b : circular_buffer} (h0 : 0 < C) (hC : C ≤ 255)
    (hS : BufSim C b []) :
    (size b).1 = 0 ∧ empty b = true ∧ available b = false ∧ full b = false := by
  have hI := hS.inv
  have hs : b._size = 0 := by rw [← hS.length_eq]; rfl
  have hh : b._head = b._tail := by
    have := hI.head_eq
    rw [hs, Nat.add_zero, Nat.mod_eq_of_lt hI.tail_lt] at this
    exact this
  have hf : b._full = false := by
    cases h : b._full
    · rfl
    · have := hI.full_iff.1 h; omega
  refine ⟨by rw [size_of_inv hI hC]; exact hs, by simp [empty, hf, hh], by simp [available, hs],
    hf⟩

end circular_buffer

/-- C2: on a fresh buffer of capacity `1 ≤ C ≤ 255` (counters at least 8 bits wide),
`N ≤ C` consecutive `put` calls are all defined and leave `size() = N`, `overflows() = 0`
and `puts() = N`, whatever the frames and the sampled times. -/
theorem C2_puts_within_capacity (w C : Nat) (mem : Nat → buffer_entry_t)
    (fs : List (Nat × CANFrame)) (h1 : 1 ≤ C) (hC : C ≤ 255) (hw : 8 ≤ w)
    (hN : fs.length ≤ C) :
    ∃ rs b, circular_buffer.run w (putCalls fs) (circular_buffer.new C mem) = some (rs, b) ∧
      (circular_buffer.size b).1 = fs.length ∧ circular_buffer.overflows b = 0 ∧
      circular_buffer.puts b = fs.length := by
  have hM : 0 < 2 ^ w := Nat.pow_pos (by decide)
  have h256 : 256 ≤ 2 ^ w := by
    calc 256 = 2 ^ 8 := by norm_num
      _ ≤ 2 ^ w := Nat.pow_le_pow_right (by decide) hw
  obtain ⟨b, hrun, hS, hputs, -, hov⟩ :=
    circular_buffer.puts_run h1 hC w fs _ _ (circular_buffer.new_sim C mem h1) hM hM
  have hd : ([] : List buffer_entry_t).length + fs.length - C = 0 := by
    simp only [List.length_nil]; omega
  rw [hd] at hS hov
  refine ⟨_, b, hrun, ?_, ?_, ?_⟩
  · rw [circular_buffer.size_of_inv hS.inv hC, ← hS.length_eq]
    simp
  · simpa [circular_buffer.overflows, circular_buffer.new] using hov
  · simp only [circular_buffer.puts, hputs, circular_buffer.new, Nat.zero_add]
    exact Nat.mod_eq_of_lt (by omega)

theorem C2_puts_within_capacity_witness :
    1 ≤ 4 ∧ 4 ≤ 255 ∧ 8 ≤ 16 ∧ [(10, frameA), (20, frameB), (30, frameC)].length ≤ 4 ∧
    ∃ rs b, circular_buffer.run 16 (putCalls [(10, frameA), (20, frameB), (30, frameC)])
        (circular_buffer.new 4 mem0) = some (rs, b) ∧
      (circular_buffer.size b).1 = [(10, frameA), (20, frameB), (30, frameC)].length ∧
      circular_buffer.overflows b = 0 ∧
      circular_buffer.puts b = [(10, frameA), (20, frameB), (30, frameC)].length :=
  ⟨by decide, by decide, by decide, by decide,
    C2_puts_within_capacity 16 4 mem0 _ (by decide) (by decide) (by decide) (by decide)⟩

/-- C3: on a fresh buffer of capacity `1 ≤ C ≤ 255`, after `C + k` consecutive `put` calls
of the frames `f_1 .. f_{C+k}` (`k` below `2 ^ w`, the range of the overflow counter),
`size() = C` and `overflows() = k`; the next `C` calls of `get` return `f_{k+1} .. f_{C+k}`
in that order, and the buffer is empty afterwards. -/
theorem C3_overflow_keeps_newest (w C k : Nat) (mem : Nat → buffer_entry_t)
    (fs : List (Nat × CANFrame)) (h1 : 1 ≤ C) (hC : C ≤ 255) (hk : k < 2 ^ w)
    (hlen : fs.length = C + k) :
    ∃ rs b, circular_buffer.run w (putCalls fs) (circular_buffer.new C mem) = some (rs, b) ∧
      (circular_buffer.size b).1 = C ∧ circular_buffer.overflows b = k ∧
      ∃ b', circular_buffer.run w (getCalls C) b =
          some ((fs.drop k).map (fun f => BufRet.ptr (some f.2)), b') ∧
        (circular_buffer.size b').1 = 0 ∧ circular_buffer.empty b' = true ∧
        circular_buffer.available b' = false := by
  have hM : 0 < 2 ^ w := Nat.pow_pos (by decide)
  obtain ⟨b, hrun, hS, -, -, hov⟩ :=
    circular_buffer.puts_run h1 hC w fs _ _ (circular_buffer.new_sim C mem h1) hM hM
  have hd : ([] : List buffer_entry_t).length + fs.length - C = k := by
    simp only [List.length_nil]; omega
  rw [hd] at hS hov
  simp only [List.nil_append] at hS
  have hql : (List.drop k (fs.map (fun f => buffer_entry_t.mk f.1 f.2))).length = C := by
    simp [hlen]
  obtain ⟨b', hrun', hS'⟩ := circular_buffer.gets_run h1 hC w _ b hS
  rw [hql] at hrun'
  obtain ⟨e1, e2, e3, -⟩ := circular_buffer.empty_of_sim_nil h1 hC hS'
  refine ⟨_, b, hrun, ?_, ?_, b', ?_, e1, e2, e3⟩
  · rw [circular_buffer.size_of_inv hS.inv hC, ← hS.length_eq, hql]
  · simp only [circular_buffer.overflows, hov, circular_buffer.new, Nat.zero_add]
    exact Nat.mod_eq_of_lt hk
  · rw [hrun']
    simp only [List.map_drop, List.map_map]
    rfl

theorem C3_overflow_keeps_newest_witness :
    1 ≤ 4 ∧ 4 ≤ 255 ∧ 1 < 2 ^ 16 ∧
    [(10, frameA), (20, frameB), (30, frameC), (40, frameD), (50, frameE)].length = 4 + 1 ∧
    ∃ rs b, circular_buffer.run 16
        (putCalls [(10, frameA), (20, frameB), (30, frameC), (40, frameD), (50, frameE)])
        (circular_buffer.new 4 mem0) = some (rs, b) ∧
      (circular_buffer.size b).1 = 4 ∧ circular_buffer.overflows b = 1 ∧
      ∃ b', circular_buffer.run 16 (getCalls 4) b =
          some (([(10, frameA), (20, frameB), (30, frameC), (40, frameD), (50, frameE)].drop
            1).map (fun f => BufRet.ptr (some f.2)), b') ∧
        (circular_buffer.size b').1 = 0 ∧ circular_buffer.empty b' = true ∧
        circular_buffer.available b' = false :=
  ⟨by decide, by decide, by decide, by decide,
    C3_overflow_keeps_newest 16 4 1 mem0 _ (by decide) (by decide) (by decide) (by decide)⟩

namespace circular_buffer

theorem reachable_new (w C : Nat) (mem : Nat → buffer_entry_t) : Reachable w C (new C mem) :=
  ⟨mem, [], [], rfl⟩

theorem absStep_map (C : Nat) (o : BufOp) (q : List buffer_entry_t) :
    absStep C o (q.map (fun e => e._item)) =
      (opRet o q, (pendingStep C (.op o) q).map (fun e => e._item)) := by
  cases o with
  | put now f =>
    by_cases h : q.length = C <;> simp [absStep, opRet, pendingStep, h, List.map_tail]
  | get => simp [absStep, opRet, pendingStep, List.map_tail]
  | peek => simp [absStep, opRet, pendingStep]
  | clear => simp [absStep, opRet, pendingStep]

theorem absRun_map (C : Nat) :
    ∀ (ops : List BufOp) (q : List buffer_entry_t),
      absRun C ops (q.map (fun e => e._item)) =
        (opRets C ops q, (pending C (ops.map BufCall.op) q).map (fun e => e._item)) := by
  intro ops
  induction ops with
  | nil => intro q; rfl
  | cons o os ih =>
    intro q
    simp only [absRun, absStep_map, ih, opRets, List.map_cons, pending]

theorem pending_mem (C : Nat) :
    ∀ (calls : List BufCall) (q : List buffer_entry_t) (e : buffer_entry_t),
      e ∈ pending C calls q →
        e ∈ q ∨ BufCall.op (BufOp.put e._item_insert_time e._item) ∈ calls := by
  intro calls
  induction calls with
  | nil => intro q e h; exact Or.inl h
  | cons c cs ih =>
    intro q e h
    rcases ih _ e h with h1 | h1
    · rcases c with (_ | _ | _ | _) | a
      · rename_i now f
        simp only [pendingStep, List.mem_append, List.mem_singleton] at h1
        rcases h1 with h2 | h2
        · left
          split at h2
          · exact List.mem_of_mem_tail h2
          · exact h2
        · right
          subst h2
          exact List.mem_cons_self _ _
      · exact Or.inl (List.mem_of_mem_tail h1)
      · exact Or.inl h1
      · simp [pendingStep] at h1
      · exact Or.inl h1
    · exact Or.inr (List.mem_cons_of_mem _ h1)

end circular_buffer

/-- C4 (counterexample): on a buffer constructed with capacity 0, a reachable state,
`put` is undefined: the slot at `_head = 0` lies outside the empty storage and
`% _capacity` has a zero divisor. -/
theorem C4_put_undefined_at_capacity_zero :
    Reachable 16 0 (circular_buffer.new 0 mem0) ∧
      circular_buffer.put 16 7 frameA (circular_buffer.new 0 mem0) = none ∧
      ¬ (circular_buffer.new 0 mem0)._head < (circular_buffer.new 0 mem0)._buffer.length ∧
      cmod ((circular_buffer.new 0 mem0)._head + 1) (circular_buffer.new 0 mem0)._capacity
        = none :=
  ⟨circular_buffer.reachable_new 16 0 mem0, rfl, by decide, rfl⟩

/-- C4 (amended): for every capacity `1 ≤ C ≤ 255`, every state reachable from
`circular_buffer(C)` and every frame, `put` is defined: the slot written at `_head` lies
inside the `C` allocated entries and the divisor `_capacity` of both `%` is not zero. -/
theorem C4_put_defined (w C now : Nat) (item : CANFrame) (b : circular_buffer)
    (h1 : 1 ≤ C) (hC : C ≤ 255) (hR : Reachable w C b) :
    (circular_buffer.put w now item b).isSome = true ∧
      b._buffer.length = C ∧ b._head < b._buffer.length ∧ b._capacity ≠ 0 ∧
      cmod (b._tail + 1) b._capacity ≠ none ∧ cmod (b._head + 1) b._capacity ≠ none := by
  obtain ⟨q, hS⟩ := circular_buffer.reachable_sim h1 hC hR
  obtain ⟨b', hput, -⟩ := circular_buffer.put_sim hS h1 hC w now item
  have hI := hS.inv
  have hc : b._capacity ≠ 0 := by rw [hI.cap]; omega
  refine ⟨by rw [hput]; rfl, hI.len, by rw [hI.len]; exact hI.head_lt, hc, ?_, ?_⟩ <;>
    simp [cmod, hc]

theorem C4_put_defined_witness :
    1 ≤ 4 ∧ 4 ≤ 255 ∧ Reachable 16 4 (circular_buffer.new 4 mem0) ∧
      (circular_buffer.put 16 7 frameA (circular_buffer.new 4 mem0)).isSome = true :=
  ⟨by decide, by decide, circular_buffer.reachable_new 16 4 mem0,
    (C4_put_defined 16 4 7 frameA (circular_buffer.new 4 mem0) (by decide) (by decide)
      (circular_buffer.reachable_new 16 4 mem0)).1⟩

/-- C5: for every capacity `1 ≤ C ≤ 255` and every sequence of `put`/`get`/`peek`/`clear`
calls on a fresh buffer, the calls are defined and return what the abstract
overwrite-oldest queue returns; afterwards `size()` is the length of the abstract list
and the slots `_tail`, `_tail + 1`, ... (modulo `C`) hold its frames in order. -/
theorem C5_refines_bounded_queue (w C : Nat) (mem : Nat → buffer_entry_t) (ops : List BufOp)
    (h1 : 1 ≤ C) (hC : C ≤ 255) :
    ∃ b, circular_buffer.run w (ops.map BufCall.op) (circular_buffer.new C mem) =
        some ((absRun C ops []).1, b) ∧
      (circular_buffer.size b).1 = (absRun C ops []).2.length ∧
      ∀ i, i < (absRun C ops []).2.length →
        (b._buffer[(b._tail + i) % C]?).map (fun e => e._item) = (absRun C ops []).2[i]? := by
  obtain ⟨b, hrun, hS⟩ :=
    circular_buffer.run_ops_sim h1 hC w ops _ _ (circular_buffer.new_sim C mem h1)
  have hmap := circular_buffer.absRun_map C ops []
  simp only [List.map_nil] at hmap
  rw [hmap]
  refine ⟨b, hrun, ?_, ?_⟩
  · rw [circular_buffer.size_of_inv hS.inv hC, ← hS.length_eq]
    simp
  · intro i hi
    simp only [List.length_map] at hi
    rw [hS.slots i (by rw [← hS.length_eq]; exact hi), List.getElem?_map]

theorem C5_refines_bounded_queue_witness :
    1 ≤ 2 ∧ 2 ≤ 255 ∧
    ∃ b, circular_buffer.run 16
        ([BufOp.put 1 frameA, BufOp.put 2 frameB, BufOp.put 3 frameC, BufOp.peek,
          BufOp.get].map BufCall.op) (circular_buffer.new 2 mem0) =
        some ((absRun 2 [BufOp.put 1 frameA, BufOp.put 2 frameB, BufOp.put 3 frameC,
          BufOp.peek, BufOp.get] []).1, b) ∧
      (circular_buffer.size b).1 = (absRun 2 [BufOp.put 1 frameA, BufOp.put 2 frameB,
          BufOp.put 3 frameC, BufOp.peek, BufOp.get] []).2.length ∧
      ∀ i, i < (absRun 2 [BufOp.put 1 frameA, BufOp.put 2 frameB, BufOp.put 3 frameC,
          BufOp.peek, BufOp.get] []).2.length →
        (b._buffer[(b._tail + i) % 2]?).map (fun e => e._item) =
          (absRun 2 [BufOp.put 1 frameA, BufOp.put 2 frameB, BufOp.put 3 frameC,
            BufOp.peek, BufOp.get] []).2[i]? :=
  ⟨by decide, by decide, C5_refines_bounded_queue 16 2 mem0 _ (by decide) (by decide)⟩

/-- C6: in the state reached by any call sequence on a fresh buffer of capacity
`1 ≤ C ≤ 255`: if the buffer is empty, `put(f)` sampling the time `t`, then
`insert_time()` and `get()` return `t` and a frame equal to `f`; if it is not empty,
`insert_time()` returns the time sampled by the `put` call of the sequence that stored
the oldest pending entry, and `get()` returns the frame of that same entry. -/
theorem C6_round_trip_with_timestamp (w C : Nat) (mem : Nat → buffer_entry_t)
    (calls : List BufCall) (h1 : 1 ≤ C) (hC : C ≤ 255) :
    ∃ rs b, circular_buffer.run w calls (circular_buffer.new C mem) = some (rs, b) ∧
      ((circular_buffer.size b).1 = 0 → ∀ (t : Nat) (f : CANFrame), ∃ b',
        circular_buffer.run w [.op (.put t f), .acc .insert_time, .op .get] b =
          some ([.void, .num t, .ptr (some f)], b')) ∧
      (0 < (circular_buffer.size b).1 → ∃ e b',
        (pending C calls []).head? = some e ∧
        BufCall.op (BufOp.put e._item_insert_time e._item) ∈ calls ∧
        circular_buffer.insert_time b = some e._item_insert_time ∧
        circular_buffer.get w b = some (some e._item, b')) := by
  obtain ⟨rs, b, hrun, hS⟩ :=
    circular_buffer.run_sim h1 hC w calls _ _ (circular_buffer.new_sim C mem h1)
  have hsz := circular_buffer.size_of_inv hS.inv hC
  refine ⟨rs, b, hrun, ?_, ?_⟩
  · intro h0 t f
    rw [hsz] at h0
    simp only at h0
    have hq : pending C calls [] = [] :=
      List.length_eq_zero.1 (by rw [hS.length_eq, h0])
    rw [hq] at hS
    obtain ⟨b1, hput, hS1, -⟩ := circular_buffer.put_sim hS h1 hC w t f
    have hp : pendingStep C (.op (.put t f)) [] = [⟨t, f⟩] := by
      have : ¬ (0 = C) := by omega
      simp [pendingStep, this]
    rw [hp] at hS1
    have hs1 : 0 < b1._size := by rw [← hS1.length_eq]; simp
    obtain ⟨e, b2, hhead, hget, -, htime, -⟩ := circular_buffer.get_sim hS1 h1 hC hs1 w
    simp only [List.head?_cons, Option.some.injEq] at hhead
    subst hhead
    refine ⟨b2, ?_⟩
    simp [circular_buffer.run, circular_buffer.call, hput, htime, hget]
  · intro h0
    rw [hsz] at h0
    simp only at h0
    obtain ⟨e, b', hhead, hget, -, htime, -⟩ := circular_buffer.get_sim hS h1 hC h0 w
    refine ⟨e, b', hhead, ?_, htime, hget⟩
    have hmem : e ∈ pending C calls [] := List.mem_of_mem_head? hhead
    rcases circular_buffer.pending_mem C calls [] e hmem with h | h
    · simp at h
    · exact h

theorem C6_round_trip_with_timestamp_witness :
    1 ≤ 2 ∧ 2 ≤ 255 ∧
    ∃ rs b, circular_buffer.run 16 [.op (.put 5 frameA), .op (.put 9 frameB)]
        (circular_buffer.new 2 mem0) = some (rs, b) ∧
      ((circular_buffer.size b).1 = 0 → ∀ (t : Nat) (f : CANFrame), ∃ b',
        circular_buffer.run 16 [.op (.put t f), .acc .insert_time, .op .get] b =
          some ([.void, .num t, .ptr (some f)], b')) ∧
      (0 < (circular_buffer.size b).1 → ∃ e b',
        (pending 2 [.op (.put 5 frameA), .op (.put 9 frameB)] []).head? = some e ∧
        BufCall.op (BufOp.put e._item_insert_time e._item) ∈
          [BufCall.op (.put 5 frameA), BufCall.op (.put 9 frameB)] ∧
        circular_buffer.insert_time b = some e._item_insert_time ∧
        circular_buffer.get 16 b = some (some e._item, b')) :=
  ⟨by decide, by decide,
    C6_round_trip_with_timestamp 16 2 mem0 _ (by decide) (by decide)⟩

/-- C7: in every state reachable on a buffer of capacity `1 ≤ C ≤ 255` in which `size()`
is 0, `get()` returns the null pointer and leaves every field of the buffer as it was. -/
theorem C7_get_on_empty (w C : Nat) (b : circular_buffer) (h1 : 1 ≤ C) (hC : C ≤ 255)
    (hR : Reachable w C b) (h0 : (circular_buffer.size b).1 = 0) :
    circular_buffer.get w b = some (none, b) ∧
      circular_buffer.call w (.op .get) b = some (.ptr none, b) := by
  obtain ⟨q, hS⟩ := circular_buffer.reachable_sim h1 hC hR
  rw [circular_buffer.size_of_inv hS.inv hC] at h0
  simp only at h0
  have hget : circular_buffer.get w b = some (none, b) := by
    simp [circular_buffer.get, h0]
  exact ⟨hget, by simp [circular_buffer.call, hget]⟩

theorem C7_get_on_empty_witness :
    1 ≤ 4 ∧ 4 ≤ 255 ∧ Reachable 16 4 (circular_buffer.new 4 mem0) ∧
      (circular_buffer.size (circular_buffer.new 4 mem0)).1 = 0 ∧
      circular_buffer.get 16 (circular_buffer.new 4 mem0) =
        some (none, circular_buffer.new 4 mem0) ∧
      circular_buffer.call 16 (.op .get) (circular_buffer.new 4 mem0) =
        some (.ptr none, circular_buffer.new 4 mem0) :=
  ⟨by decide, by decide, circular_buffer.reachable_new 16 4 mem0, rfl,
    C7_get_on_empty 16 4 (circular_buffer.new 4 mem0) (by decide) (by decide)
      (circular_buffer.reachable_new 16 4 mem0) rfl⟩

/-- C8: in every state reachable on a buffer of capacity `1 ≤ C ≤ 255`, `peek()` is
defined and leaves the buffer unchanged, two consecutive calls return the same pointer,
the result is null exactly when `size()` is 0, and an immediately following `get()`
returns the same result. -/
theorem C8_peek_is_pure (w C : Nat) (b : circular_buffer) (h1 : 1 ≤ C) (hC : C ≤ 255)
    (hR : Reachable w C b) :
    ∃ p, circular_buffer.peek b = some p ∧
      circular_buffer.call w (.op .peek) b = some (.ptr p, b) ∧
      circular_buffer.run w [.op .peek, .op .peek] b = some ([.ptr p, .ptr p], b) ∧
      (p = none ↔ (circular_buffer.size b).1 = 0) ∧
      ∃ b', circular_buffer.get w b = some (p, b') := by
  obtain ⟨q, hS⟩ := circular_buffer.reachable_sim h1 hC hR
  have hsz := circular_buffer.size_of_inv hS.inv hC
  by_cases hs : 0 < b._size
  · obtain ⟨e, b', -, hget, -, -, hpeek, -⟩ := circular_buffer.get_sim hS h1 hC hs w
    refine ⟨some e._item, hpeek, by simp [circular_buffer.call, hpeek],
      by simp [circular_buffer.run, circular_buffer.call, hpeek], ?_, b', hget⟩
    rw [hsz]
    simp only [reduceCtorEq, false_iff]
    omega
  · have hs0 : b._size = 0 := by omega
    have hpeek := circular_buffer.peek_empty hs0
    refine ⟨none, hpeek, by simp [circular_buffer.call, hpeek],
      by simp [circular_buffer.run, circular_buffer.call, hpeek], ?_, b, ?_⟩
    · rw [hsz]
      simp [hs0]
    · simp [circular_buffer.get, hs0]

theorem C8_peek_is_pure_witness :
    1 ≤ 4 ∧ 4 ≤ 255 ∧ Reachable 16 4 rxWrap ∧
    ∃ p, p = some frameC ∧ circular_buffer.peek rxWrap = some p ∧
      circular_buffer.call 16 (.op .peek) rxWrap = some (.ptr p, rxWrap) ∧
      circular_buffer.run 16 [.op .peek, .op .peek] rxWrap = some ([.ptr p, .ptr p], rxWrap) ∧
      (p = none ↔ (circular_buffer.size rxWrap).1 = 0) ∧
      ∃ b', circular_buffer.get 16 rxWrap = some (p, b') :=
  ⟨by decide, by decide, ⟨mem0, callsWrap, _, rfl⟩,
    (C8_peek_is_pure 16 4 rxWrap (by decide) (by decide) ⟨mem0, callsWrap, _, rfl⟩).elim
      fun p h => ⟨p,
        Option.some.inj (h.1.symm.trans
          (rfl : circular_buffer.peek rxWrap = some (some frameC))), h⟩⟩

/-- C9: in every state (reachable or not) `clear()` makes `size()` 0, `available()`
false, `full()` false and `empty()` true, and leaves `puts()`, `gets()`, `overflows()`,
`hwm()`, the capacity and the storage as they were. -/
theorem C9_clear_keeps_counters (w : Nat) (b : circular_buffer) :
    circular_buffer.call w (.op .clear) b = some (.void, circular_buffer.clear b) ∧
      (circular_buffer.size (circular_buffer.clear b)).1 = 0 ∧
      (circular_buffer.clear b)._size = 0 ∧
      circular_buffer.available (circular_buffer.clear b) = false ∧
      circular_buffer.full (circular_buffer.clear b) = false ∧
      circular_buffer.empty (circular_buffer.clear b) = true ∧
      circular_buffer.puts (circular_buffer.clear b) = circular_buffer.puts b ∧
      circular_buffer.gets (circular_buffer.clear b) = circular_buffer.gets b ∧
      circular_buffer.overflows (circular_buffer.clear b) = circular_buffer.overflows b ∧
      circular_buffer.hwm (circular_buffer.clear b) = circular_buffer.hwm b ∧
      (circular_buffer.clear b)._capacity = b._capacity ∧
      (circular_buffer.clear b)._buffer = b._buffer := by
  refine ⟨rfl, ?_, rfl, rfl, rfl, rfl, rfl, rfl, rfl, rfl, rfl, rfl⟩
  simp [circular_buffer.size, circular_buffer.clear, toByte]

theorem maxSize_cons (s : circular_buffer) (ss : List circular_buffer) :
    maxSize (s :: ss) = max (circular_buffer.size s).1 (maxSize ss) := rfl

namespace circular_buffer

theorem trace_hwm {C : Nat} (h0 : 0 < C) (hC : C ≤ 255) (w : Nat) :
    ∀ (calls : List BufCall) (b : circular_buffer) (q : List buffer_entry_t), BufSim C b q →
      ∃ ss, trace w calls b = some (b :: ss) ∧ ss.length = calls.length ∧
        List.Chain (fun s t => hwm s ≤ hwm t) b ss ∧
        ∀ n, n < ss.length + 1 →
          ((b :: ss)[n]?).map hwm = some (max b._hwm (maxSize ((b :: ss).take (n + 1)))) := by
  intro calls
  induction calls with
  | nil =>
    intro b q hS
    refine ⟨[], rfl, rfl, List.Chain.nil, ?_⟩
    intro n hn
    have hn0 : n = 0 := by simpa using hn
    subst hn0
    have hsz := size_of_inv hS.inv hC
    have := hS.inv.size_le_hwm
    simp only [List.getElem?_cons_zero, Option.map_some', hwm, List.take_succ_cons,
      List.take_zero, maxSize_cons, hsz, Option.some.injEq]
    simp only [maxSize, List.map_nil, List.foldr_nil]
    omega
  | cons c cs ih =>
    intro b q hS
    obtain ⟨r, b1, hcall, hS1, hhwm, -⟩ := call_sim hS h0 hC w c
    obtain ⟨ss1, htr, hlen, hch, hmax⟩ := ih b1 _ hS1
    have hsz := size_of_inv hS.inv hC
    have hsz1 := size_of_inv hS1.inv hC
    have hle := hS.inv.size_le_hwm
    refine ⟨b1 :: ss1, by simp [trace, hcall, htr], by simp [hlen], ?_, ?_⟩
    · refine List.Chain.cons ?_ hch
      simp only [hwm]; omega
    · intro n hn
      cases n with
      | zero =>
        simp only [List.getElem?_cons_zero, Option.map_some', hwm, List.take_succ_cons,
          List.take_zero, maxSize_cons, hsz, Option.some.injEq]
        simp only [maxSize, List.map_nil, List.foldr_nil]
        omega
      | succ m =>
        have hm := hmax m (by simpa using hn)
        rw [List.getElem?_cons_succ, hm]
        simp only [List.take_succ_cons, maxSize_cons, hsz, hsz1, Option.some.injEq]
        omega

end circular_buffer

/-- C10: for every capacity `1 ≤ C ≤ 255` and every sequence of calls on a fresh buffer,
all calls are defined, `hwm()` never decreases from one state to the next, and in the state
after the first `n` calls `hwm()` is the maximum of `size()` over the initial state and
the states after each of these `n` calls. -/
theorem C10_hwm_is_running_maximum (w C : Nat) (mem : Nat → buffer_entry_t)
    (calls : List BufCall) (h1 : 1 ≤ C) (hC : C ≤ 255) :
    ∃ ss, circular_buffer.trace w calls (circular_buffer.new C mem) = some ss ∧
      ss.length = calls.length + 1 ∧
      List.Chain' (fun s t => circular_buffer.hwm s ≤ circular_buffer.hwm t) ss ∧
      ∀ n, n < ss.length →
        (ss[n]?).map circular_buffer.hwm = some (maxSize (ss.take (n + 1))) := by
  obtain ⟨ss, htr, hlen, hch, hmax⟩ :=
    circular_buffer.trace_hwm h1 hC w calls _ _ (circular_buffer.new_sim C mem h1)
  refine ⟨_, htr, by simp [hlen], hch, ?_⟩
  intro n hn
  have := hmax n (by simpa using hn)
  rw [this]
  simp [circular_buffer.new]

theorem C10_hwm_is_running_maximum_witness :
    1 ≤ 2 ∧ 2 ≤ 255 ∧
    ∃ ss, circular_buffer.trace 16 [.op (.put 1 frameA), .op .get, .op .clear]
        (circular_buffer.new 2 mem0) = some ss ∧
      ss.length = [BufCall.op (.put 1 frameA), .op .get, .op .clear].length + 1 ∧
      List.Chain' (fun s t => circular_buffer.hwm s ≤ circular_buffer.hwm t) ss ∧
      ∀ n, n < ss.length →
        (ss[n]?).map circular_buffer.hwm = some (maxSize (ss.take (n + 1))) :=
  ⟨by decide, by decide, C10_hwm_is_running_maximum 16 2 mem0 _ (by decide) (by decide)⟩

namespace circular_buffer

theorem call_counters {C : Nat} {b : circular_buffer} {q : List buffer_entry_t}
    (hS : BufSim C b q) (h0 : 0 < C) (hC : C ≤ 255) (w : Nat) (c : BufCall) :
    ∃ r b', call w c b = some (r, b') ∧ BufSim C b' (pendingStep C c q) ∧
      b'._puts = (if c.isPut then (b._puts + 1) % 2 ^ w else b._puts) ∧
      b'._gets = (if c.isGet && decide (0 < b._size) then (b._gets + 1) % 2 ^ w
        else b._gets) ∧
      b'._overflows = (if c.isPut && b._full then (b._overflows + 1) % 2 ^ w
        else b._overflows) := by
  obtain ⟨r, b', hcall, hS', -, -⟩ := call_sim hS h0 hC w c
  refine ⟨r, b', hcall, hS', ?_⟩
  rcases c with (_ | _ | _ | _) | a
  · rename_i now item
    obtain ⟨b1, hput, -, -, hputs, hgets, hov⟩ := put_sim hS h0 hC w now item
    simp only [call, hput, Option.map_some', Option.some.injEq, Prod.mk.injEq] at hcall
    obtain ⟨-, rfl⟩ := hcall
    simp only [BufCall.isPut, BufCall.isGet, Bool.false_and, Bool.true_and, if_true]
    exact ⟨hputs, by simpa using hgets, hov⟩
  · by_cases hs : 0 < b._size
    · obtain ⟨e, b1, -, hget, -, -, -, -, hputs, hgets, hov⟩ := get_sim hS h0 hC hs w
      simp only [call, hget, Option.map_some', Option.some.injEq, Prod.mk.injEq] at hcall
      obtain ⟨-, rfl⟩ := hcall
      simp [BufCall.isPut, BufCall.isGet, hs, hputs, hgets, hov]
    · have hs0 : b._size = 0 := by omega
      simp only [call, get, hs0, Nat.lt_irrefl, if_false, Option.pure_def,
        Option.map_some', Option.some.injEq, Prod.mk.injEq, gt_iff_lt] at hcall
      obtain ⟨-, rfl⟩ := hcall
      simp [BufCall.isPut, BufCall.isGet, hs0]
  · have hr : ∃ p, peek b = some p := by
      cases hp : peek b with
      | none => simp [call, hp] at hcall
      | some p => exact ⟨p, rfl⟩
    obtain ⟨p, hp⟩ := hr
    simp only [call, hp, Option.map_some', Option.some.injEq, Prod.mk.injEq] at hcall
    obtain ⟨-, rfl⟩ := hcall
    simp [BufCall.isPut, BufCall.isGet]
  · simp only [call, Option.some.injEq, Prod.mk.injEq] at hcall
    obtain ⟨-, rfl⟩ := hcall
    simp [BufCall.isPut, BufCall.isGet, clear]
  · have hsz := size_of_inv hS.inv hC
    have hb : b' = b := by
      cases a <;>
        simp only [call, hsz, Option.some.injEq, Prod.mk.injEq, Option.map_eq_some'] at hcall
      all_goals first
        | exact hcall.2.symm
        | (obtain ⟨_, _, h2⟩ := hcall; exact h2.2.symm)
    subst hb
    simp [BufCall.isPut, BufCall.isGet]

end circular_buffer

namespace circular_buffer

theorem noloss_run {C : Nat} (h0 : 0 < C) (hC : C ≤ 255) (w : Nat) :
    ∀ (ops : List BufOp) (b : circular_buffer) (q : List buffer_entry_t), BufSim C b q →
      (∀ o ∈ ops, o.isPutOrGet = true) →
      noPutWhenFull w C (ops.map BufCall.op) b = true →
      ∃ rs b' ss, run w (ops.map BufCall.op) b = some (rs, b') ∧
        trace w (ops.map BufCall.op) b = some ss ∧
        BufSim C b' (pending C (ops.map BufCall.op) q) ∧
        (∀ s ∈ ss, s._overflows = b._overflows ∧ (size s).1 ≤ C) ∧
        q.map (fun e => e._item) ++ putFrames ops =
          gotFrames rs ++ (pending C (ops.map BufCall.op) q).map (fun e => e._item) := by
  intro ops
  induction ops with
  | nil =>
    intro b q hS _ _
    refine ⟨[], b, [b], rfl, rfl, hS, ?_, by simp [putFrames, gotFrames, pending]⟩
    intro s hs
    simp only [List.mem_singleton] at hs
    subst hs
    rw [size_of_inv hS.inv hC]
    exact ⟨rfl, hS.inv.size_le⟩
  | cons o os ih =>
    intro b q hS hpg hnf
    have hsz := size_of_inv hS.inv hC
    obtain ⟨r, b1, hcall, hS1, -, hr⟩ := call_sim hS h0 hC w (.op o)
    obtain ⟨r', b1', hcall', -, -, -, hov⟩ := call_counters hS h0 hC w (.op o)
    rw [hcall] at hcall'
    simp only [Option.some.injEq, Prod.mk.injEq] at hcall'
    obtain ⟨-, rfl⟩ := hcall'
    have hr' := hr o rfl
    subst hr'
    simp only [List.map_cons, noPutWhenFull, hcall, Bool.and_eq_true, Bool.not_eq_true',
      Bool.and_eq_false_imp, decide_eq_false_iff_not, hsz] at hnf
    obtain ⟨hnot, hnf1⟩ := hnf
    obtain ⟨rs, b2, ss, hrun, htr, hS2, hss, hfr⟩ :=
      ih b1 _ hS1 (fun o' ho' => hpg o' (List.mem_cons_of_mem _ ho')) hnf1
    have hov1 : b1._overflows = b._overflows := by
      rw [hov]
      cases o with
      | put t f =>
        have hne : b._size ≠ C := hnot rfl
        have hf : b._full = false := by
          cases h : b._full
          · rfl
          · exact absurd (hS.inv.full_iff.1 h) hne
        simp [hf]
      | get => simp [BufCall.isPut]
      | peek => simp [BufCall.isPut]
      | clear => simp [BufCall.isPut]
    refine ⟨opRet o q :: rs, b2, b :: ss, by simp [run, hcall, hrun], by simp [trace, hcall, htr],
      hS2, ?_, ?_⟩
    · intro s hs
      rcases List.mem_cons.1 hs with h | h
      · subst h
        rw [hsz]
        exact ⟨rfl, hS.inv.size_le⟩
      · obtain ⟨e1, e2⟩ := hss s h
        exact ⟨by rw [e1, hov1], e2⟩
    · cases o with
      | put t f =>
        have hne : q.length ≠ C := by rw [hS.length_eq]; exact hnot rfl
        simp only [pendingStep, hne, if_false, List.map_append, List.map_cons, List.map_nil,
          List.append_assoc, List.singleton_append] at hfr
        simpa [putFrames, gotFrames, opRet, pending, pendingStep, hne] using hfr
      | get =>
        cases q with
        | nil =>
          simpa [putFrames, gotFrames, opRet, pending, pendingStep] using hfr
        | cons e q1 =>
          simp only [pendingStep, List.tail_cons] at hfr
          simp [putFrames, gotFrames, opRet, pending, pendingStep, hfr]
      | peek => exact absurd (hpg _ (List.mem_cons_self _ _)) (by simp [BufOp.isPutOrGet])
      | clear => exact absurd (hpg _ (List.mem_cons_self _ _)) (by simp [BufOp.isPutOrGet])

end circular_buffer

/-- C11: for every capacity `1 ≤ C ≤ 255` and every sequence of `put`/`get` calls on a
fresh buffer in which no `put` is issued while `size()` is `C`: all calls are defined, in
every state of the run `overflows()` is 0 and `size()` is at most `C`, and the frames
returned by the non-null gets, followed by the frames still stored (oldest first, in the
slots `_tail`, `_tail + 1`, ... modulo `C`), are exactly the frames put, in put order. -/
theorem C11_no_loss_without_overflow (w C : Nat) (mem : Nat → buffer_entry_t)
    (ops : List BufOp) (h1 : 1 ≤ C) (hC : C ≤ 255)
    (hpg : ∀ o ∈ ops, o.isPutOrGet = true)
    (hnf : noPutWhenFull w C (ops.map BufCall.op) (circular_buffer.new C mem) = true) :
    ∃ rs b ss,
      circular_buffer.run w (ops.map BufCall.op) (circular_buffer.new C mem) = some (rs, b) ∧
      circular_buffer.trace w (ops.map BufCall.op) (circular_buffer.new C mem) = some ss ∧
      (∀ s ∈ ss, circular_buffer.overflows s = 0 ∧ (circular_buffer.size s).1 ≤ C) ∧
      ∃ stored : List CANFrame, stored.length = (circular_buffer.size b).1 ∧
        (∀ i, i < stored.length →
          (b._buffer[(b._tail + i) % C]?).map (fun e => e._item) = stored[i]?) ∧
        gotFrames rs ++ stored = putFrames ops := by
  obtain ⟨rs, b, ss, hrun, htr, hS, hss, hfr⟩ :=
    circular_buffer.noloss_run h1 hC w ops _ _ (circular_buffer.new_sim C mem h1) hpg hnf
  refine ⟨rs, b, ss, hrun, htr, hss,
    (pending C (ops.map BufCall.op) []).map (fun e => e._item), ?_, ?_, ?_⟩
  · rw [circular_buffer.size_of_inv hS.inv hC, ← hS.length_eq]
    simp
  · intro i hi
    simp only [List.length_map] at hi
    rw [hS.slots i (by rw [← hS.length_eq]; exact hi), List.getElem?_map]
  · simpa using hfr.symm

theorem C11_no_loss_without_overflow_witness :
    1 ≤ 4 ∧ 4 ≤ 255 ∧
    (∀ o ∈ [BufOp.get, .put 1 frameA, .get, .put 2 frameB, .get, .put 3 frameC],
      o.isPutOrGet = true) ∧
    noPutWhenFull 16 4 ([BufOp.get, .put 1 frameA, .get, .put 2 frameB, .get,
      .put 3 frameC].map BufCall.op) (circular_buffer.new 4 mem0) = true ∧
    (circular_buffer.trace 16 ([BufOp.get, .put 1 frameA, .get, .put 2 frameB, .get,
      .put 3 frameC].map BufCall.op) (circular_buffer.new 4 mem0)).map
        (fun ss => ss.map (fun s => (circular_buffer.size s).1)) =
      some [0, 0, 1, 0, 1, 0, 1] ∧
    ∃ rs b ss,
      circular_buffer.run 16 ([BufOp.get, .put 1 frameA, .get, .put 2 frameB, .get,
        .put 3 frameC].map BufCall.op) (circular_buffer.new 4 mem0) = some (rs, b) ∧
      circular_buffer.trace 16 ([BufOp.get, .put 1 frameA, .get, .put 2 frameB, .get,
        .put 3 frameC].map BufCall.op) (circular_buffer.new 4 mem0) = some ss ∧
      (∀ s ∈ ss, circular_buffer.overflows s = 0 ∧ (circular_buffer.size s).1 ≤ 4) ∧
      ∃ stored : List CANFrame, stored.length = (circular_buffer.size b).1 ∧
        (∀ i, i < stored.length →
          (b._buffer[(b._tail + i) % 4]?).map (fun e => e._item) = stored[i]?) ∧
        gotFrames rs ++ stored =
          putFrames [BufOp.get, .put 1 frameA, .get, .put 2 frameB, .get, .put 3 frameC] :=
  ⟨by decide, by decide, by decide, by decide, by decide,
    C11_no_loss_without_overflow 16 4 mem0 _ (by decide) (by decide) (by decide) (by decide)⟩

/-- C18: in every state reachable on a buffer of capacity `1 ≤ C ≤ 255`, `size()` returns
the cached occupancy, which equals the recomputation, and leaves the buffer unchanged;
`available()`, `empty()` and `free_slots()` agree with `size()`; and every accessor call is
defined and returns the buffer with all fields as they were. -/
theorem C18_accessors_agree (w C : Nat) (b : circular_buffer) (h1 : 1 ≤ C) (hC : C ≤ 255)
    (hR : Reachable w C b) :
    circular_buffer.size b = (b._size, b) ∧
      b._size = (if b._full then C
        else if b._head ≥ b._tail then b._head - b._tail else C + b._head - b._tail) ∧
      circular_buffer.available b = decide ((circular_buffer.size b).1 > 0) ∧
      circular_buffer.empty b = decide ((circular_buffer.size b).1 = 0) ∧
      circular_buffer.free_slots b = C - (circular_buffer.size b).1 ∧
      ∀ a : BufAccessor, ∃ r, circular_buffer.call w (.acc a) b = some (r, b) := by
  obtain ⟨q, hS⟩ := circular_buffer.reachable_sim h1 hC hR
  have hI := hS.inv
  have hsz := circular_buffer.size_of_inv hI hC
  have hle := hI.size_le
  have htl := hI.tail_lt
  have hhl := hI.head_lt
  have hrec : b._size = (if b._full then C
      else if b._head ≥ b._tail then b._head - b._tail else C + b._head - b._tail) := by
    cases hf : b._full
    · have hne : b._size ≠ C := fun h => by simp [hI.full_iff.2 h] at hf
      have hh := hI.head_eq
      simp only [Bool.false_eq_true, if_false]
      rcases mod_two_range (b._tail + b._size) C (by omega) with ⟨h2, h3⟩ | ⟨h2, h3⟩
      · rw [h3] at hh
        rw [if_pos (by omega)]; omega
      · rw [h3] at hh
        rw [if_neg (by omega)]; omega
    · simpa using hI.full_iff.1 hf
  refine ⟨hsz, hrec, ?_, ?_, ?_, ?_⟩
  · rw [hsz]; rfl
  · rw [hsz]
    simp only [circular_buffer.empty]
    cases hf : b._full
    · simp only [hf, Bool.false_eq_true, if_false] at hrec
      have : b._head = b._tail ↔ b._size = 0 := by
        constructor
        · intro h; rw [hrec, if_pos (by omega)]; omega
        · intro h
          have hh := hI.head_eq
          rw [h, Nat.add_zero, Nat.mod_eq_of_lt htl] at hh
          exact hh
      simp [this]
    · have := hI.full_iff.1 hf
      have hne : b._size ≠ 0 := by omega
      simp [hne]
  · rw [hsz]
    simp only [circular_buffer.free_slots, hI.cap]
    exact toByte_sub C b._size hle (by omega)
  · intro a
    have hlt : b._tail < b._buffer.length := by rw [hI.len]; exact htl
    cases a
    case size => exact ⟨.num b._size, by simp [circular_buffer.call, hsz]⟩
    case insert_time =>
      exact ⟨.num (b._buffer[b._tail])._item_insert_time,
        by simp [circular_buffer.call, circular_buffer.insert_time,
          List.getElem?_eq_getElem hlt]⟩
    all_goals exact ⟨_, rfl⟩

theorem C18_accessors_agree_witness :
    1 ≤ 4 ∧ 4 ≤ 255 ∧ Reachable 16 4 rxWrap ∧ rxWrap._size = 3 ∧
    (circular_buffer.size rxWrap = (rxWrap._size, rxWrap) ∧
      rxWrap._size = (if rxWrap._full then 4
        else if rxWrap._head ≥ rxWrap._tail then rxWrap._head - rxWrap._tail
        else 4 + rxWrap._head - rxWrap._tail) ∧
      circular_buffer.available rxWrap = decide ((circular_buffer.size rxWrap).1 > 0) ∧
      circular_buffer.empty rxWrap = decide ((circular_buffer.size rxWrap).1 = 0) ∧
      circular_buffer.free_slots rxWrap = 4 - (circular_buffer.size rxWrap).1 ∧
      ∀ a : BufAccessor, ∃ r, circular_buffer.call 16 (.acc a) rxWrap = some (r, rxWrap)) ∧
    1 ≤ 2 ∧ 2 ≤ 255 ∧ Reachable 16 2 rxFull ∧ rxFull._size = 2 ∧
    (circular_buffer.size rxFull = (rxFull._size, rxFull) ∧
      rxFull._size = (if rxFull._full then 2
        else if rxFull._head ≥ rxFull._tail then rxFull._head - rxFull._tail
        else 2 + rxFull._head - rxFull._tail) ∧
      circular_buffer.available rxFull = decide ((circular_buffer.size rxFull).1 > 0) ∧
      circular_buffer.empty rxFull = decide ((circular_buffer.size rxFull).1 = 0) ∧
      circular_buffer.free_slots rxFull = 2 - (circular_buffer.size rxFull).1 ∧
      ∀ a : BufAccessor, ∃ r, circular_buffer.call 16 (.acc a) rxFull = some (r, rxFull)) :=
  ⟨by decide, by decide, ⟨mem0, callsWrap, _, rfl⟩, rfl,
    C18_accessors_agree 16 4 rxWrap (by decide) (by decide) ⟨mem0, callsWrap, _, rfl⟩,
    by decide, by decide, ⟨mem0, callsFull, _, rfl⟩, rfl,
    C18_accessors_agree 16 2 rxFull (by decide) (by decide) ⟨mem0, callsFull, _, rfl⟩⟩

namespace circular_buffer

theorem run_counters {C : Nat} (h0 : 0 < C) (hC : C ≤ 255) (w : Nat) :
    ∀ (calls : List BufCall) (b : circular_buffer) (q : List buffer_entry_t) (P G O : Nat),
      BufSim C b q → BufCall.op BufOp.clear ∉ calls →
      b._puts = P % 2 ^ w → b._gets = G % 2 ^ w → b._overflows = O % 2 ^ w →
      P = G + O + b._size →
      ∃ rs b' G' O', run w calls b = some (rs, b') ∧ BufSim C b' (pending C calls q) ∧
        b'._puts = (P + numPuts calls) % 2 ^ w ∧ b'._gets = G' % 2 ^ w ∧
        b'._overflows = O' % 2 ^ w ∧ P + numPuts calls = G' + O' + b'._size := by
  intro calls
  induction calls with
  | nil =>
    intro b q P G O hS _ hp hg ho hsum
    exact ⟨[], b, G, O, rfl, hS, by simpa [numPuts] using hp, hg, ho, by simpa [numPuts] using hsum⟩
  | cons c cs ih =>
    intro b q P G O hS hnc hp hg ho hsum
    obtain ⟨r, b1, hcall, hS1, hputs, hgets, hov⟩ := call_counters hS h0 hC w c
    have hnc1 : BufCall.op BufOp.clear ∉ cs := fun h => hnc (List.mem_cons_of_mem _ h)
    have hlen := hS.length_eq
    have hlen1 := hS1.length_eq
    have hfull := hS.inv.full_iff
    have hle := hS.inv.size_le
    have key : ∃ G1 O1, b1._puts = (P + (if c.isPut then 1 else 0)) % 2 ^ w ∧
        b1._gets = G1 % 2 ^ w ∧ b1._overflows = O1 % 2 ^ w ∧
        P + (if c.isPut then 1 else 0) = G1 + O1 + b1._size := by
      rcases c with (_ | _ | _ | _) | a
      · rename_i now item
        simp only [BufCall.isPut, BufCall.isGet, if_true, Bool.true_and, Bool.false_and,
          Bool.false_eq_true, if_false] at hputs hgets hov ⊢
        by_cases hq : q.length = C
        · have hf : b._full = true := hfull.2 (by omega)
          have hl : b1._size = C := by
            rw [← hlen1]
            simp only [pendingStep, hq, if_true, List.length_append, List.length_tail,
              List.length_cons, List.length_nil]
            omega
          refine ⟨G, O + 1, by rw [hputs, hp, Nat.mod_add_mod], by rw [hgets, hg],
            by rw [hov, hf, if_pos rfl, ho, Nat.mod_add_mod], by omega⟩
        · have hf : b._full = false := by
            cases h : b._full
            · rfl
            · exact absurd (by rw [hlen]; exact hfull.1 h) hq
          have hl : b1._size = b._size + 1 := by
            rw [← hlen1]
            simp only [pendingStep, hq, if_false, List.length_append,
              List.length_cons, List.length_nil]
            omega
          refine ⟨G, O, by rw [hputs, hp, Nat.mod_add_mod], by rw [hgets, hg],
            by rw [hov, hf, if_neg (by simp), ho], by omega⟩
      · simp only [BufCall.isPut, BufCall.isGet, Bool.true_and, Bool.false_and,
          Bool.false_eq_true, if_false, decide_eq_true_eq, Nat.add_zero] at hputs hgets hov ⊢
        have hl : b1._size = b._size - 1 := by
          rw [← hlen1]; simp [pendingStep, hlen]
        by_cases hs : 0 < b._size
        · refine ⟨G + 1, O, by rw [hputs, hp], by rw [hgets, if_pos hs, hg, Nat.mod_add_mod],
            by rw [hov, ho], by omega⟩
        · refine ⟨G, O, by rw [hputs, hp], by rw [hgets, if_neg hs, hg],
            by rw [hov, ho], by omega⟩
      · simp only [BufCall.isPut, BufCall.isGet, Bool.false_and,
          Bool.false_eq_true, if_false, Nat.add_zero] at hputs hgets hov ⊢
        have hl : b1._size = b._size := by
          rw [← hlen1]; simp [pendingStep, hlen]
        exact ⟨G, O, by rw [hputs, hp], by rw [hgets, hg], by rw [hov, ho], by omega⟩
      · exact absurd (List.mem_cons_self _ _) hnc
      · simp only [BufCall.isPut, BufCall.isGet, Bool.false_and,
          Bool.false_eq_true, if_false, Nat.add_zero] at hputs hgets hov ⊢
        have hl : b1._size = b._size := by
          rw [← hlen1]; simp [pendingStep, hlen]
        exact ⟨G, O, by rw [hputs, hp], by rw [hgets, hg], by rw [hov, ho], by omega⟩
    obtain ⟨G1, O1, hp1, hg1, ho1, hsum1⟩ := key
    obtain ⟨rs, b2, G2, O2, hrun, hS2, hp2, hg2, ho2, hsum2⟩ :=
      ih b1 _ _ G1 O1 hS1 hnc1 hp1 hg1 ho1 hsum1
    have hnum : numPuts (c :: cs) = (if c.isPut then 1 else 0) + numPuts cs := by
      simp only [numPuts, List.filter_cons]
      split <;> simp [Nat.add_comm]
    refine ⟨r :: rs, b2, G2, O2, by simp [run, hcall, hrun], hS2, ?_, hg2, ho2, ?_⟩
    · rw [hp2, hnum, Nat.add_assoc]
    · rw [hnum, ← Nat.add_assoc]; exact hsum2

end circular_buffer

/-- C19: for every capacity `1 ≤ C ≤ 255` and every sequence of calls without `clear` on a
fresh buffer, all calls are defined and afterwards `puts() = gets() + overflows() + size()`
modulo `2 ^ w`, and exactly as long as fewer than `2 ^ w` puts were made; a further call
increases `overflows()` by one (modulo `2 ^ w`) exactly when it is a `put` on a full
buffer, and `gets()` by one exactly when it is a `get` on a non-empty buffer. -/
theorem C19_counter_conservation (w C : Nat) (mem : Nat → buffer_entry_t)
    (calls : List BufCall) (h1 : 1 ≤ C) (hC : C ≤ 255)
    (hnc : BufCall.op BufOp.clear ∉ calls) :
    ∃ rs b, circular_buffer.run w calls (circular_buffer.new C mem) = some (rs, b) ∧
      circular_buffer.puts b % 2 ^ w =
        (circular_buffer.gets b + circular_buffer.overflows b +
          (circular_buffer.size b).1) % 2 ^ w ∧
      (numPuts calls < 2 ^ w →
        circular_buffer.puts b =
          circular_buffer.gets b + circular_buffer.overflows b +
            (circular_buffer.size b).1) ∧
      ∀ c : BufCall, ∃ r b', circular_buffer.call w c b = some (r, b') ∧
        circular_buffer.overflows b' =
          (if c.isPut && circular_buffer.full b then (circular_buffer.overflows b + 1) % 2 ^ w
            else circular_buffer.overflows b) ∧
        circular_buffer.gets b' =
          (if c.isGet && decide (0 < (circular_buffer.size b).1)
            then (circular_buffer.gets b + 1) % 2 ^ w else circular_buffer.gets b) := by
  obtain ⟨rs, b, G, O, hrun, hS, hp, hg, ho, hsum⟩ :=
    circular_buffer.run_counters h1 hC w calls _ _ 0 0 0 (circular_buffer.new_sim C mem h1)
      hnc rfl rfl rfl rfl
  have hsz := circular_buffer.size_of_inv hS.inv hC
  simp only [Nat.zero_add] at hp hsum
  refine ⟨rs, b, hrun, ?_, ?_, ?_⟩
  · simp only [circular_buffer.puts, circular_buffer.gets, circular_buffer.overflows, hsz,
      hp, hg, ho, Nat.mod_mod, hsum]
    have e1 : (G % 2 ^ w + O % 2 ^ w + b._size) ≡ (G + O + b._size) [MOD 2 ^ w] :=
      ((Nat.mod_modEq G _).add (Nat.mod_modEq O _)).add_right _
    exact e1.symm
  · intro hlt
    simp only [circular_buffer.puts, circular_buffer.gets, circular_buffer.overflows, hsz,
      hp, hg, ho]
    rw [Nat.mod_eq_of_lt hlt, Nat.mod_eq_of_lt (by omega), Nat.mod_eq_of_lt (by omega)]
    exact hsum
  · intro c
    obtain ⟨r, b', hcall, -, -, hgets, hov⟩ := circular_buffer.call_counters hS h1 hC w c
    refine ⟨r, b', hcall, ?_, ?_⟩
    · simpa [circular_buffer.overflows, circular_buffer.full] using hov
    · simpa [circular_buffer.gets, hsz] using hgets

theorem C19_counter_conservation_witness :
    1 ≤ 1 ∧ 1 ≤ 255 ∧
    BufCall.op BufOp.clear ∉
      [BufCall.op (.put 1 frameA), .op (.put 2 frameB), .op .peek, .op .get, .op .get] ∧
    ∃ rs b, circular_buffer.run 16
        [BufCall.op (.put 1 frameA), .op (.put 2 frameB), .op .peek, .op .get, .op .get]
        (circular_buffer.new 1 mem0) = some (rs, b) ∧
      circular_buffer.puts b % 2 ^ 16 =
        (circular_buffer.gets b + circular_buffer.overflows b +
          (circular_buffer.size b).1) % 2 ^ 16 ∧
      (numPuts [BufCall.op (.put 1 frameA), .op (.put 2 frameB), .op .peek, .op .get,
          .op .get] < 2 ^ 16 →
        circular_buffer.puts b =
          circular_buffer.gets b + circular_buffer.overflows b +
            (circular_buffer.size b).1) ∧
      ∀ c : BufCall, ∃ r b', circular_buffer.call 16 c b = some (r, b') ∧
        circular_buffer.overflows b' =
          (if c.isPut && circular_buffer.full b then (circular_buffer.overflows b + 1) % 2 ^ 16
            else circular_buffer.overflows b) ∧
        circular_buffer.gets b' =
          (if c.isGet && decide (0 < (circular_buffer.size b).1)
            then (circular_buffer.gets b + 1) % 2 ^ 16 else circular_buffer.gets b) :=
  ⟨by decide, by decide, by decide,
    C19_counter_conservation 16 1 mem0 _ (by decide) (by decide) (by decide)⟩

namespace CBUSMCP_CAN

theorem begin_config (poll : Bool) (env : BeginEnv) (a : CBUSMCP_CAN) :
    (begin poll env a).2._poll = poll ∧
      (begin poll env a).2._osc_freq = a._osc_freq ∧
      (begin poll env a).2._csPin = a._csPin ∧
      (begin poll env a).2._intPin = a._intPin ∧
      (begin poll env a).2._num_rx_buffers = a._num_rx_buffers ∧
      (begin poll env a).2._num_tx_buffers = a._num_tx_buffers ∧
      (begin poll env a).2.rx_buffer =
        some (circular_buffer.new a._num_rx_buffers env.mem_rx) ∧
      (begin poll env a).2.tx_buffer =
        some (circular_buffer.new a._num_tx_buffers env.mem_tx) ∧
      (begin poll env a).2.canp = env.new_canp := by
  unfold begin
  dsimp only
  cases env.new_canp with
  | none => simp
  | some chip =>
    dsimp only
    cases clockOf a._osc_freq with
    | none => simp
    | some freq =>
      dsimp only
      cases chip.begin_ok freq <;> cases chip.setMode_ok <;> cases poll <;> simp

theorem applySetters_tx :
    ∀ (ss : List Setter) (a : CBUSMCP_CAN),
      (applySetters ss a)._num_tx_buffers = a._num_tx_buffers := by
  intro ss
  induction ss with
  | nil => intro a; rfl
  | cons s ss ih =>
    intro a
    cases s <;> simp [applySetters, ih, setPins, setNumBuffers, setOscFreq]

end CBUSMCP_CAN

/-- C12 (the code at the failing input): after `begin(true, spi)` the adapter is in
polling mode, and after a following `reset()` it is not: `reset` calls `begin()` with
the default `poll = false`, which also attaches the interrupt callback. The crystal
frequency, the pins and the receive-buffer count are the ones configured before. In a
sketch with this one adapter, `available()` finds the pending frame before the reset and
not after it. -/
theorem C12_reset_leaves_polling_mode (env env1 : BeginEnv) (a : CBUSMCP_CAN) :
    (CBUSMCP_CAN.begin true env a).2._poll = true ∧
      (CBUSMCP_CAN.reset env1 (CBUSMCP_CAN.begin true env a).2)._poll = false ∧
      (CBUSMCP_CAN.reset env1 (CBUSMCP_CAN.begin true env a).2)._osc_freq = a._osc_freq ∧
      (CBUSMCP_CAN.reset env1 (CBUSMCP_CAN.begin true env a).2)._csPin = a._csPin ∧
      (CBUSMCP_CAN.reset env1 (CBUSMCP_CAN.begin true env a).2)._intPin = a._intPin ∧
      (CBUSMCP_CAN.reset env1 (CBUSMCP_CAN.begin true env a).2).rx_buffer =
        some (circular_buffer.new a._num_rx_buffers env1.mem_rx) ∧
      (CBUSMCP_CAN.available 16 5 (some (0x123, 1, [65])) 0
          ⟨[(CBUSMCP_CAN.begin true env0 (CBUSMCP_CAN.new raw0)).2], 0⟩).map Prod.fst =
        some true ∧
      (CBUSMCP_CAN.available 16 5 (some (0x123, 1, [65])) 0
          ⟨[CBUSMCP_CAN.reset env0 (CBUSMCP_CAN.begin true env0 (CBUSMCP_CAN.new raw0)).2],
            0⟩).map Prod.fst = some false := by
  have h1 := CBUSMCP_CAN.begin_config true env a
  have h2 := CBUSMCP_CAN.begin_config false env1
    { (CBUSMCP_CAN.begin true env a).2 with
      hw := (CBUSMCP_CAN.begin true env a).2.hw ++ [HwCall.delete_MCP_CAN] }
  obtain ⟨p1, o1, c1, i1, r1, -⟩ := h1
  obtain ⟨p2, o2, c2, i2, -, -, rx2, -⟩ := h2
  refine ⟨p1, p2, ?_, ?_, ?_, ?_, rfl, rfl⟩
  · rw [← o1]; exact o2
  · rw [← c1]; exact c2
  · rw [← i1]; exact i2
  · rw [← r1]; exact rx2

/-- C13: `begin(poll, spi)` returns true exactly when the chip driver object exists, its
`setMode(MCP_NORMAL)` returns `MCP2515_OK` and the configured crystal frequency is
8000000, 16000000 or 20000000 Hz with the chip driver's `begin` returning `CAN_OK` for
the matching setting; with any other frequency it returns false and calls neither
`begin` nor `setMode` of the chip driver; and it attaches the interrupt callback exactly
when it returns true and `poll` is false. -/
theorem C13_begin_result (poll : Bool) (env : BeginEnv) (a : CBUSMCP_CAN) :
    ((CBUSMCP_CAN.begin poll env a).1 = true ↔
        ∃ chip, env.new_canp = some chip ∧ chip.setMode_ok = true ∧
          ((a._osc_freq = 8000000 ∧ chip.begin_ok McpClock.MCP_8MHZ = true) ∨
            (a._osc_freq = 16000000 ∧ chip.begin_ok McpClock.MCP_16MHZ = true) ∨
            (a._osc_freq = 20000000 ∧ chip.begin_ok McpClock.MCP_20MHZ = true))) ∧
      (¬(a._osc_freq = 8000000 ∨ a._osc_freq = 16000000 ∨ a._osc_freq = 20000000) →
        (CBUSMCP_CAN.begin poll env a).1 = false ∧
        ∀ c ∈ (CBUSMCP_CAN.begin poll env a).2.hw.drop a.hw.length,
          c ≠ HwCall.canp_setMode ∧ ∀ f, c ≠ HwCall.canp_begin f) ∧
      ((∃ pin, HwCall.attachInterrupt pin ∈
          (CBUSMCP_CAN.begin poll env a).2.hw.drop a.hw.length) ↔
        (CBUSMCP_CAN.begin poll env a).1 = true ∧ poll = false) := by
  unfold CBUSMCP_CAN.begin CBUSMCP_CAN.clockOf
  dsimp only
  cases hnew : env.new_canp with
  | none => simp
  | some chip =>
    dsimp only
    by_cases h8 : a._osc_freq = 8000000
    · cases hb : chip.begin_ok McpClock.MCP_8MHZ <;> cases hm : chip.setMode_ok <;>
        cases poll <;> simp [h8, hb, hm]
    · by_cases h16 : a._osc_freq = 16000000
      · cases hb : chip.begin_ok McpClock.MCP_16MHZ <;> cases hm : chip.setMode_ok <;>
          cases poll <;> simp [h16, hb, hm]
      · by_cases h20 : a._osc_freq = 20000000
        · cases hb : chip.begin_ok McpClock.MCP_20MHZ <;> cases hm : chip.setMode_ok <;>
            cases poll <;> simp [h20, hb, hm]
        · simp [h8, h16, h20]

theorem and_mask_eq_iff_testBit (id i : Nat) :
    decide (id &&& 2 ^ i = 2 ^ i) = id.testBit i := by
  rw [Nat.and_two_pow]
  cases h : id.testBit i
  · have : (0 : Nat) < 2 ^ i := Nat.pow_pos (by decide)
    simp
    omega
  · simp

theorem or_pow_mod_testBit (x i n j : Nat) :
    ((x ||| 2 ^ i) % 2 ^ n).testBit j = (decide (j < n) && (x.testBit j || decide (i = j))) := by
  simp [Nat.testBit_mod_two_pow, Nat.testBit_or, Nat.testBit_two_pow]

theorem flag_bits (x : Nat) (ext rtr : Bool) (h30 : x.testBit 30 = false)
    (h31 : x.testBit 31 = false) :
    let y := if ext then (x ||| 0x80000000) % 2 ^ 32 else x
    let z := if rtr then (y ||| 0x40000000) % 2 ^ 32 else y
    z.testBit 31 = ext ∧ z.testBit 30 = rtr ∧ z % 2 ^ 30 = x % 2 ^ 30 := by
  have A : ∀ x j, ((x ||| 0x80000000) % 2 ^ 32).testBit j =
      (decide (j < 32) && (x.testBit j || decide (31 = j))) :=
    fun x j => or_pow_mod_testBit x 31 32 j
  have B : ∀ x j, ((x ||| 0x40000000) % 2 ^ 32).testBit j =
      (decide (j < 32) && (x.testBit j || decide (30 = j))) :=
    fun x j => or_pow_mod_testBit x 30 32 j
  intro y z
  have key : ∀ j, z.testBit j =
      (if rtr then (decide (j < 32) && ((if ext then (decide (j < 32) &&
        (x.testBit j || decide (31 = j))) else x.testBit j) || decide (30 = j)))
       else (if ext then (decide (j < 32) && (x.testBit j || decide (31 = j)))
        else x.testBit j)) := by
    intro j
    cases ext <;> cases rtr <;> simp only [y, z, A, B, if_true, if_false, Bool.false_eq_true]
  refine ⟨?_, ?_, ?_⟩
  · rw [key]; cases ext <;> cases rtr <;> simp [h31]
  · rw [key]; cases ext <;> cases rtr <;> simp [h30]
  · apply Nat.eq_of_testBit_eq
    intro j
    rw [Nat.testBit_mod_two_pow, Nat.testBit_mod_two_pow, key]
    by_cases hj : j < 30
    · have h1 : j < 32 := by omega
      have h2 : ¬ 31 = j := by omega
      have h3 : ¬ 30 = j := by omega
      cases ext <;> cases rtr <;> simp [hj, h1, h2, h3]
    · simp [hj]

/-- C14: when `makeHeader` leaves bits 30 and 31 of the identifier clear, `sendMessage`
submits to `sendMsgBuf` the identifier, length and data of the frame as the call leaves
it: the length and data are those `makeHeader` left, bit 31 of the identifier is set
exactly when `ext` is true, bit 30 exactly when `rtr` is true, and its low 30 bits are
those `makeHeader` produced; it returns what `sendMsgBuf` answers. -/
theorem C14_send_flag_encoding (w : Nat) (makeHeader : CANFrame → Nat → CANFrame)
    (send_ok : Bool) (msg : CANFrame) (rtr ext : Bool) (priority : Nat) (a : CBUSMCP_CAN)
    (chip : MCP_CAN) (hc : a.canp = some chip)
    (h30 : (makeHeader msg priority).id.testBit 30 = false)
    (h31 : (makeHeader msg priority).id.testBit 31 = false) :
    ∃ sent a1,
      CBUSMCP_CAN.sendMessage w makeHeader send_ok msg rtr ext priority a =
        some (send_ok, sent, a1) ∧
      a1.hw = a.hw ++ [HwCall.sendMsgBuf sent.id sent.len sent.data] ∧
      sent.len = (makeHeader msg priority).len ∧
      sent.data = (makeHeader msg priority).data ∧
      sent.id.testBit 31 = ext ∧ sent.id.testBit 30 = rtr ∧
      sent.id % 2 ^ 30 = (makeHeader msg priority).id % 2 ^ 30 := by
  obtain ⟨b31, b30, blow⟩ := flag_bits (makeHeader msg priority).id ext rtr h30 h31
  unfold CBUSMCP_CAN.sendMessage
  simp only [hc]
  cases send_ok <;> cases ext <;> cases rtr <;>
    simp only [↓reduceIte, Bool.false_eq_true] <;>
    exact ⟨_, _, rfl, rfl, rfl, rfl, b31, b30, blow⟩

theorem C14_send_flag_encoding_witness :
    (∃ sent a1,
      CBUSMCP_CAN.sendMessage 16 (fun f _ => { f with id := 0x123 }) true
          frameB false true 11 (CBUSMCP_CAN.begin false env0 (CBUSMCP_CAN.new raw0)).2 =
        some (true, sent, a1) ∧
      a1.hw = (CBUSMCP_CAN.begin false env0 (CBUSMCP_CAN.new raw0)).2.hw ++
        [HwCall.sendMsgBuf sent.id sent.len sent.data] ∧
      sent.len = frameB.len ∧
      sent.data = frameB.data ∧
      sent.id.testBit 31 = true ∧ sent.id.testBit 30 = false ∧
      sent.id % 2 ^ 30 = 0x123 % 2 ^ 30) :=
  C14_send_flag_encoding 16 (fun f _ => { f with id := 0x123 }) true frameB
    false true 11 (CBUSMCP_CAN.begin false env0 (CBUSMCP_CAN.new raw0)).2 chip0 rfl
    (by decide) (by decide)

/-- C15: on an adapter whose receive buffer is a reachable buffer of capacity
`1 ≤ C ≤ 255` for which `available()` is true, `getNextMessage()` is defined, returns the
frame `peek()` shows, leaves a receive buffer whose `size()` is one less, and adds one
(modulo `2 ^ w`) to the received-message counter; `get()` does not return `nullptr`. -/
theorem C15_getNextMessage (w C : Nat) (a : CBUSMCP_CAN) (rx : circular_buffer)
    (h1 : 1 ≤ C) (hC : C ≤ 255) (hrx : a.rx_buffer = some rx) (hR : Reachable w C rx)
    (hav : circular_buffer.available rx = true) :
    ∃ cf rx1 a1, CBUSMCP_CAN.getNextMessage w a = some (cf, a1) ∧
      circular_buffer.peek rx = some (some cf) ∧
      circular_buffer.get w rx = some (some cf, rx1) ∧
      a1.rx_buffer = some rx1 ∧
      (circular_buffer.size rx1).1 + 1 = (circular_buffer.size rx).1 ∧
      a1._numMsgsRcvd = (a._numMsgsRcvd + 1) % 2 ^ w ∧
      (a._numMsgsRcvd + 1 < 2 ^ w → a1._numMsgsRcvd = a._numMsgsRcvd + 1) := by
  obtain ⟨q, hS⟩ := circular_buffer.reachable_sim h1 hC hR
  have hs : 0 < rx._size := by simpa [circular_buffer.available] using hav
  obtain ⟨e, rx1, -, hget, hS1, -, hpeek, -⟩ := circular_buffer.get_sim hS h1 hC hs w
  have hsz := circular_buffer.size_of_inv hS.inv hC
  have hsz1 := circular_buffer.size_of_inv hS1.inv hC
  have hl := hS.length_eq
  have hl1 := hS1.length_eq
  refine ⟨e._item, rx1,
    { a with _numMsgsRcvd := (a._numMsgsRcvd + 1) % 2 ^ w, rx_buffer := some rx1 },
    ?_, hpeek, hget, ?_, ?_, ?_, ?_⟩
  · simp only [CBUSMCP_CAN.getNextMessage, hrx, hget]
  · rfl
  · rw [hsz, hsz1]
    simp only [List.length_tail] at hl1
    omega
  · rfl
  · intro hlt
    exact Nat.mod_eq_of_lt hlt

theorem C15_getNextMessage_witness :
    1 ≤ 4 ∧ 4 ≤ 255 ∧ Reachable 16 4 rxOne ∧
    ∃ cf rx1 a1,
      CBUSMCP_CAN.getNextMessage 16 (CBUSMCP_CAN.mk none none (some rxOne) 0 0 0 4 0 false 0 0 [])
        = some (cf, a1) ∧
      circular_buffer.peek rxOne = some (some cf) ∧
      circular_buffer.get 16 rxOne = some (some cf, rx1) ∧
      a1.rx_buffer = some rx1 ∧
      (circular_buffer.size rx1).1 + 1 = (circular_buffer.size rxOne).1 ∧
      a1._numMsgsRcvd = (0 + 1) % 2 ^ 16 ∧
      (0 + 1 < 2 ^ 16 → a1._numMsgsRcvd = 0 + 1) :=
  ⟨by decide, by decide, ⟨mem0, [.op (.put 7 frameA)], [.void], rfl⟩,
    C15_getNextMessage 16 4 (CBUSMCP_CAN.mk none none (some rxOne) 0 0 0 4 0 false 0 0 []) rxOne
      (by decide) (by decide) rfl ⟨mem0, [.op (.put 7 frameA)], [.void], rfl⟩ rfl⟩

theorem isr_none (w now : Nat) (a : CBUSMCP_CAN) (chip : MCP_CAN) (hc : a.canp = some chip) :
    isr w now none a = some { a with hw := a.hw ++ [HwCall.readMsgBuf] } := by
  simp only [isr, hc]

theorem isr_some (w now id len : Nat) (data : List Nat) (a : CBUSMCP_CAN) (chip : MCP_CAN)
    (rx rx1 : circular_buffer) (hc : a.canp = some chip) (hrx : a.rx_buffer = some rx)
    (hput : circular_buffer.put w now ⟨id, id.testBit 31, id.testBit 30, len, data⟩ rx =
      some rx1) :
    isr w now (some (id, len, data)) a =
      some { a with hw := a.hw ++ [HwCall.readMsgBuf], rx_buffer := some rx1 } := by
  have e31 : decide (id &&& 0x80000000 = 0x80000000) = id.testBit 31 :=
    and_mask_eq_iff_testBit id 31
  have e30 : decide (id &&& 0x40000000 = 0x40000000) = id.testBit 30 :=
    and_mask_eq_iff_testBit id 30
  simp only [isr, hc, hrx, e31, e30, hput]

/-- C17 (counterexample): in a sketch with two adapters, the first in polling mode with an
empty receive buffer, `pp` points to the adapter constructed last. `available()` on the
first adapter, with a chip read that returns `CAN_OK`, returns false: `isr` has put the
frame into the receive buffer of the other adapter. -/
theorem C17_polling_with_two_adapters :
    sketch2.pp = 1 ∧
      (sketch2.objs[0]?).map (fun a => a._poll) = some true ∧
      (sketch2.objs[0]?).map (fun a => a.rx_buffer) =
        some (some (circular_buffer.new 4 mem0)) ∧
      (CBUSMCP_CAN.available 16 9 (some (0x123, 1, [65])) 0 sketch2).map Prod.fst =
        some false ∧
      ((CBUSMCP_CAN.available 16 9 (some (0x123, 1, [65])) 0 sketch2).bind
          (fun r => r.2.objs[0]?)).map (fun a => a.rx_buffer) =
        some (some (circular_buffer.new 4 mem0)) ∧
      ((CBUSMCP_CAN.available 16 9 (some (0x123, 1, [65])) 0 sketch2).bind
          (fun r => r.2.objs[1]?)).map
            (fun a => a.rx_buffer.map (fun rx => (circular_buffer.size rx).1)) =
        some (some 1) :=
  ⟨rfl, rfl, rfl, rfl, rfl, rfl⟩

/-- C17 (amended): on an adapter of the sketch with a chip driver and a reachable receive
buffer of capacity `1 ≤ C ≤ 255`. In polling mode `available()` runs `isr()` once and
returns the `available()` of its receive buffer; when `pp` points to this adapter and
that buffer was empty, it returns true exactly when `readMsgBuf` returned `CAN_OK`, and
`getNextMessage()` then returns the frame read. In interrupt-driven mode it reads nothing
from the chip, leaves the whole sketch unchanged and returns true exactly when `size()`
of the receive buffer is positive. -/
theorem C17_adapter_available (w C now this : Nat) (rd : Option (Nat × Nat × List Nat))
    (s : Sketch) (a : CBUSMCP_CAN) (chip : MCP_CAN) (rx : circular_buffer)
    (h1 : 1 ≤ C) (hC : C ≤ 255) (hobj : s.objs[this]? = some a)
    (hc : a.canp = some chip) (hrx : a.rx_buffer = some rx) (hR : Reachable w C rx) :
    (a._poll = true →
      CBUSMCP_CAN.available w now rd this s =
          (Sketch.isr_pp w now rd s).bind (fun s1 =>
            (s1.objs[this]?).bind (fun a1 =>
              a1.rx_buffer.map (fun rx1 => (circular_buffer.available rx1, s1)))) ∧
        (s.pp = this → (circular_buffer.size rx).1 = 0 →
          ∃ s1 a1, CBUSMCP_CAN.available w now rd this s = some (rd.isSome, s1) ∧
            s1.objs[this]? = some a1 ∧
            ∀ (id len : Nat) (data : List Nat), rd = some (id, len, data) →
              ∃ a2, CBUSMCP_CAN.getNextMessage w a1 =
                some (⟨id, id.testBit 31, id.testBit 30, len, data⟩, a2))) ∧
      (a._poll = false →
        CBUSMCP_CAN.available w now rd this s =
          some (decide ((circular_buffer.size rx).1 > 0), s)) := by
  obtain ⟨q, hS⟩ := circular_buffer.reachable_sim h1 hC hR
  have hsz := circular_buffer.size_of_inv hS.inv hC
  have hn1 := isr_none w now a chip hc
  have hlt : this < s.objs.length := by
    by_contra hge
    rw [List.getElem?_eq_none (by omega)] at hobj
    cases hobj
  constructor
  · intro hp
    constructor
    · unfold CBUSMCP_CAN.available
      simp only [hobj, hp, if_true]
      cases hi : Sketch.isr_pp w now rd s with
      | none => rfl
      | some s1 =>
        cases ho : s1.objs[this]? with
        | none => simp [ho]
        | some a1 =>
          cases hb : a1.rx_buffer with
          | none => simp [ho, hb]
          | some rx1 => simp [ho, hb]
    · intro hpp h0
      rw [hsz] at h0
      simp only at h0
      cases rd with
      | none =>
        refine ⟨Sketch.mk (s.objs.set this { a with hw := a.hw ++ [HwCall.readMsgBuf] }) s.pp,
          { a with hw := a.hw ++ [HwCall.readMsgBuf] }, ?_, ?_, ?_⟩
        · simp only [CBUSMCP_CAN.available, hobj, hp, if_true, Sketch.isr_pp, hpp, hn1,
            List.getElem?_set_self hlt, hrx, circular_buffer.available]
          simp [h0]
        · exact List.getElem?_set_self hlt
        · intro id len data h; cases h
      | some r =>
        obtain ⟨id, len, data⟩ := r
        have hq : q = [] := List.length_eq_zero.1 (by rw [hS.length_eq, h0])
        subst hq
        obtain ⟨rx1, hput, hS1, -⟩ := circular_buffer.put_sim hS h1 hC w now
          ⟨id, id.testBit 31, id.testBit 30, len, data⟩
        have hi := isr_some w now id len data a chip rx rx1 hc hrx hput
        have hp1 : pendingStep C (.op (.put now ⟨id, id.testBit 31, id.testBit 30, len, data⟩))
            [] = [⟨now, ⟨id, id.testBit 31, id.testBit 30, len, data⟩⟩] := by
          have : ¬ (0 = C) := by omega
          simp [pendingStep, this]
        rw [hp1] at hS1
        have hs1 : 0 < rx1._size := by rw [← hS1.length_eq]; simp
        obtain ⟨e, rx2, hhead, hget, -⟩ := circular_buffer.get_sim hS1 h1 hC hs1 w
        simp only [List.head?_cons, Option.some.injEq] at hhead
        subst hhead
        refine ⟨Sketch.mk (s.objs.set this
            { a with hw := a.hw ++ [HwCall.readMsgBuf], rx_buffer := some rx1 }) s.pp,
          { a with hw := a.hw ++ [HwCall.readMsgBuf], rx_buffer := some rx1 }, ?_, ?_, ?_⟩
        · simp only [CBUSMCP_CAN.available, hobj, hp, if_true, Sketch.isr_pp, hpp, hi,
            List.getElem?_set_self hlt, circular_buffer.available]
          simp [hs1]
        · exact List.getElem?_set_self hlt
        · intro id' len' data' h
          cases h
          refine ⟨{ a with
            hw := a.hw ++ [HwCall.readMsgBuf]
            rx_buffer := some rx2
            _numMsgsRcvd := (a._numMsgsRcvd + 1) % 2 ^ w }, ?_⟩
          simp only [CBUSMCP_CAN.getNextMessage, hget]
  · intro hp
    simp [CBUSMCP_CAN.available, hobj, hp, hrx, hsz, circular_buffer.available]

theorem C17_adapter_available_witness :
    1 ≤ 4 ∧ 4 ≤ 255 ∧ Reachable 16 4 (circular_buffer.new 4 mem0) ∧ sketch3.pp = 1 ∧
    (sketch3.objs[1]?).map (fun a => a._poll) = some true ∧
    ∃ s1 a1, CBUSMCP_CAN.available 16 9 (some (0x123, 1, [65])) 1 sketch3 =
        some (true, s1) ∧ s1.objs[1]? = some a1 ∧
      ∃ a2, CBUSMCP_CAN.getNextMessage 16 a1 =
        some (⟨0x123, Nat.testBit 0x123 31, Nat.testBit 0x123 30, 1, [65]⟩, a2) :=
  ⟨by decide, by decide, circular_buffer.reachable_new 16 4 mem0, rfl, rfl,
    (((C17_adapter_available 16 4 9 1 (some (0x123, 1, [65])) sketch3
      (CBUSMCP_CAN.begin true env0 (CBUSMCP_CAN.new raw0)).2 chip0
      (circular_buffer.new 4 mem0) (by decide) (by decide) rfl rfl rfl
      (circular_buffer.reachable_new 16 4 mem0)).1 rfl).2 rfl rfl).elim
      fun s1 h => h.elim fun a1 h => ⟨s1, a1, h.1, h.2.1, h.2.2 0x123 1 [65] rfl⟩⟩

/-- C20: `setNumBuffers(n, m)` sets the configured receive-buffer count to `n` and
changes no other member: the transmit-buffer count keeps its value, which is the 0 that
the constructor gave it whatever configuration calls were made since, so that a
following `begin` constructs the receive buffer with capacity `n` and the transmit
buffer with capacity 0. -/
theorem C20_setNumBuffers_sets_rx_only (n m : Nat) (a raw : CBUSMCP_CAN)
    (ss : List Setter) (poll : Bool) (env : BeginEnv) :
    CBUSMCP_CAN.setNumBuffers n m a = { a with _num_rx_buffers := n } ∧
      (CBUSMCP_CAN.setNumBuffers n m a)._num_tx_buffers = a._num_tx_buffers ∧
      (applySetters ss (CBUSMCP_CAN.new raw))._num_tx_buffers = 0 ∧
      (CBUSMCP_CAN.setNumBuffers n m
        (applySetters ss (CBUSMCP_CAN.new raw)))._num_tx_buffers = 0 ∧
      (CBUSMCP_CAN.begin poll env (CBUSMCP_CAN.setNumBuffers n m
        (applySetters ss (CBUSMCP_CAN.new raw)))).2.rx_buffer =
          some (circular_buffer.new n env.mem_rx) ∧
      (CBUSMCP_CAN.begin poll env (CBUSMCP_CAN.setNumBuffers n m
        (applySetters ss (CBUSMCP_CAN.new raw)))).2.tx_buffer =
          some (circular_buffer.new 0 env.mem_tx) := by
  have htx : (applySetters ss (CBUSMCP_CAN.new raw))._num_tx_buffers = 0 := by
    rw [CBUSMCP_CAN.applySetters_tx]; rfl
  obtain ⟨-, -, -, -, -, -, hrx, htxb, -⟩ := CBUSMCP_CAN.begin_config poll env
    (CBUSMCP_CAN.setNumBuffers n m (applySetters ss (CBUSMCP_CAN.new raw)))
  refine ⟨rfl, rfl, htx, htx, hrx, ?_⟩
  rw [htxb]
  show some (circular_buffer.new (applySetters ss (CBUSMCP_CAN.new raw))._num_tx_buffers
    env.mem_tx) = _
  rw [htx]
